import Mathlib

/-!
# Verification of the crop-ai bronze ingestion / parsing pipeline

Shallow embedding of the data model and operations of
`src/pipeline/ingest_bronze_agmarket.py`, `src/pipeline/ingest_bronze_common.py`
and `src/pipeline/parse_broze_agmarknet.py`, together with proofs settling the
frozen claims about the natural-language specification.

Modelling conventions:
* Python strings are Lean `String`s; the Python string builtins used by the code
  (`strip`, `lower`, `replace`, `split`) are modelled over ASCII, which covers
  every input the theorems evaluate.
* `sha256`/`hexdigest` digests are modelled by an abstract hash function passed
  as a parameter; collision-freeness is an explicit injectivity hypothesis
  where a theorem needs it.
* Python floats are modelled exactly (`PyFloat` over `ℚ` plus infinities/NaN);
  every numeric literal the theorems evaluate is exactly representable.
* Exceptions are modelled with `Except`; the database tables are association
  lists written through explicit state passing.
-/

namespace CropAI

/-! ## Python string builtins (ASCII model) -/

/-- Characters removed by Python `str.strip()` with no argument. -/
def isPySpace (c : Char) : Bool :=
  c = ' ' || c = '\t' || c = '\n' || c = '\r' || c = '\x0b' || c = '\x0c'

/-- `str.strip()` on a character list. -/
def pyStripList (l : List Char) : List Char :=
  ((l.dropWhile isPySpace).reverse.dropWhile isPySpace).reverse

/-- Python `str.strip()` (no argument: strips ASCII whitespace on both ends). -/
def pyStrip (s : String) : String :=
  ⟨pyStripList s.data⟩

/-- Python `str.lower()` (ASCII model). -/
def pyLower (s : String) : String :=
  ⟨s.data.map Char.toLower⟩

/-- Python `str.replace(',', '')`: delete every comma. -/
def removeCommas (s : String) : String :=
  ⟨s.data.filter (fun c => c ≠ ',')⟩

/-- Python `str.split(sep)` for a one-character separator. -/
def splitOnChar (sep : Char) (l : List Char) : List (List Char) :=
  l.foldr
    (fun c acc =>
      if c = sep then [] :: acc
      else
        match acc with
        | a :: rest => (c :: a) :: rest
        | [] => [[c]])
    [[]]

/-- Python `str.split('\n')` on strings. -/
def pySplitNewline (s : String) : List String :=
  (splitOnChar '\n' s.data).map (fun l => ⟨l⟩)

/-- Python `str.strip('_')`: strip underscores on both ends. -/
def stripUnderscores (l : List Char) : List Char :=
  ((l.dropWhile (fun c => c = '_')).reverse.dropWhile (fun c => c = '_')).reverse

/-- A `\w` character of Python `re` (ASCII model): letters, digits, underscore. -/
def isWordChar (c : Char) : Bool :=
  c.isAlpha || c.isDigit || c = '_'

/-- `re.sub(r"[^\w]+", "_", ·)`: replace each maximal run of non-word
characters by a single underscore (fuel-indexed; each step consumes at least
one character, so `length + 1` fuel always suffices). -/
def subNonWordF : ℕ → List Char → List Char
  | 0, l => l
  | _ + 1, [] => []
  | fuel + 1, c :: cs =>
    if isWordChar c then c :: subNonWordF fuel cs
    else '_' :: subNonWordF fuel (cs.dropWhile (fun d => !isWordChar d))

def subNonWord (l : List Char) : List Char :=
  subNonWordF (l.length + 1) l

/-- `re.sub(r"_+", "_", ·)`: collapse each run of underscores to one. -/
def subUnderscoreRunsF : ℕ → List Char → List Char
  | 0, l => l
  | _ + 1, [] => []
  | fuel + 1, c :: cs =>
    if c = '_' then '_' :: subUnderscoreRunsF fuel (cs.dropWhile (fun d => d = '_'))
    else c :: subUnderscoreRunsF fuel cs

def subUnderscoreRuns (l : List Char) : List Char :=
  subUnderscoreRunsF (l.length + 1) l

/-- `normalize_place_name` (ingest_bronze_common.py lines 30-37): lowercase the
stripped name, collapse non-word runs to underscores, collapse underscore runs,
and strip underscores at the ends; `None`/empty in, `None` out. -/
def normalize_place_name (name : Option String) : Option String :=
  match name with
  | none => none
  | some s =>
    if s = "" then none
    else
      let n := (pyLower (pyStrip s)).data
      let n := subNonWord n
      let n := subUnderscoreRuns n
      some ⟨stripUnderscores n⟩

/-! ## Python numeric values and `float()` -/

/-- A Python float: finite values are modelled exactly as rationals.  The
pipeline never performs arithmetic on the parsed numbers, so the exact model is
faithful for every value the theorems evaluate. -/
inductive PyFloat where
  | finite (q : ℚ)
  | inf
  | neginf
  | nan
deriving DecidableEq, Repr

/-- A Python runtime value as it can reach `parse_numeric`: `None`, a bool
(`isinstance(bool, int)` holds in Python), an int, a float, a str, or any
other object (list, dict, ...). -/
inductive PyValue where
  | none
  | bool (b : Bool)
  | int (z : ℤ)
  | float (f : PyFloat)
  | str (s : String)
  | other
deriving DecidableEq, Repr

/-- Python exceptions distinguished by the code under verification. -/
inductive PyExn where
  | valueError
  | overflowError
  | otherError
deriving DecidableEq, Repr

/-- The smallest integer magnitude on which Python `float(int)` raises
`OverflowError`: conversion rounds to nearest (ties to even), the largest
double is `2^1024 - 2^971`, and every integer of magnitude at least the
midpoint `2^1024 - 2^970` rounds up to the unrepresentable `2^1024`. -/
def floatOverflowBound : ℕ := 2 ^ 1024 - 2 ^ 970

/-- Consume a digit run in which single underscores may separate digits
(Python numeric literal syntax accepted by `float()`).  Returns the digits
(without underscores) and the rest, or `none` if no leading digit. -/
def takeDigitsUF : ℕ → List Char → Option (List Char × List Char)
  | 0, _ => Option.none
  | _ + 1, [] => Option.none
  | fuel + 1, c :: '_' :: d :: rest =>
    if c.isDigit then
      if d.isDigit then
        match takeDigitsUF fuel (d :: rest) with
        | Option.some (ds, r) => Option.some (c :: ds, r)
        | Option.none => Option.none
      else Option.some ([c], '_' :: d :: rest)
    else Option.none
  | fuel + 1, c :: cs =>
    if c.isDigit then
      match takeDigitsUF fuel cs with
      | Option.some (ds, r) => Option.some (c :: ds, r)
      | Option.none => Option.some ([c], cs)
    else Option.none

def takeDigitsU (l : List Char) : Option (List Char × List Char) :=
  takeDigitsUF (l.length + 1) l

/-- Natural number denoted by a digit list (most significant first). -/
def digitsVal (l : List Char) : ℕ :=
  l.foldl (fun acc c => 10 * acc + (c.toNat - '0'.toNat)) 0

/-- Core of Python `float(str)` after whitespace stripping and optional sign:
`digits [. digits] [e [sign] digits]`, `. digits ...`, `inf`, `infinity`,
`nan` (case-insensitive).  Returns the absolute value. -/
def pyFloatCore (l : List Char) : Option PyFloat :=
  let lower := l.map Char.toLower
  if lower = "inf".data || lower = "infinity".data then Option.some PyFloat.inf
  else if lower = "nan".data then Option.some PyFloat.nan
  else
    -- integer part (may be absent if a fraction part is present)
    let (ipart, rest) :=
      match takeDigitsU l with
      | Option.some (ds, r) => (Option.some ds, r)
      | Option.none => (Option.none, l)
    -- fraction part
    let (fpart, rest2) :=
      match rest with
      | '.' :: r =>
        match takeDigitsU r with
        | Option.some (ds, r2) => (Option.some (Option.some ds), r2)
        | Option.none => (Option.some Option.none, r)
      | _ => (Option.none, rest)
    -- at least one digit must appear in ipart or fpart
    let digitsOk :=
      match ipart, fpart with
      | Option.none, Option.none => false
      | Option.none, Option.some Option.none => false
      | _, _ => true
    if !digitsOk then Option.none
    else
      -- exponent part: sign flag (true = negative) and magnitude
      let expRes : Option ((Bool × ℕ) × List Char) :=
        match rest2 with
        | 'e' :: r | 'E' :: r =>
          let (esgn, r2) :=
            match r with
            | '+' :: r3 => (false, r3)
            | '-' :: r3 => (true, r3)
            | _ => (false, r)
          match takeDigitsU r2 with
          | Option.some (ds, r3) => Option.some ((esgn, digitsVal ds), r3)
          | Option.none => Option.none
        | _ => Option.some ((false, 0), rest2)
      match expRes with
      | Option.none => Option.none
      | Option.some ((esgn, emag), rest3) =>
        if rest3 ≠ [] then Option.none
        else
          let fd : List Char := (fpart.getD Option.none).getD []
          let mant : ℕ := digitsVal (ipart.getD []) * 10 ^ fd.length + digitsVal fd
          let q : ℚ :=
            if esgn then mkRat (Int.ofNat mant) (10 ^ fd.length * 10 ^ emag)
            else mkRat (Int.ofNat (mant * 10 ^ emag)) (10 ^ fd.length)
          Option.some (PyFloat.finite q)

/-- Python `float(s)` for a string argument: strip whitespace, optional sign,
then `pyFloatCore`; raises `ValueError` on anything else. -/
def pyFloatOfString (s : String) : Except PyExn PyFloat :=
  let l := pyStripList s.data
  let neg : Bool := match l with | '-' :: _ => true | _ => false
  let l2 : List Char := match l with | '+' :: r => r | '-' :: r => r | _ => l
  match pyFloatCore l2 with
  | Option.some (PyFloat.finite q) =>
    Except.ok (PyFloat.finite (if neg then -q else q))
  | Option.some PyFloat.inf =>
    Except.ok (if neg then PyFloat.neginf else PyFloat.inf)
  | Option.some PyFloat.neginf => Except.ok PyFloat.neginf
  | Option.some PyFloat.nan => Except.ok PyFloat.nan
  | Option.none => Except.error PyExn.valueError

/-- `parse_numeric` (parse_broze_agmarknet.py lines 272-290).  `None` and the
empty string map to `None`; ints/floats (and bools) are converted with
`float()`; strings have commas removed and are stripped, then blank strings
and the sentinels `na`/`n/a`/`null`/`none` (lower-cased) map to `None`, other
strings go through `float()` with `ValueError` caught to `None`; any other
object maps to `None`.  The `Except` layer mirrors Python exception flow: the
code catches exactly `ValueError`, so the `float(value)` call on the
`isinstance(value, (int, float))` branch (line 278) — which sits outside any
`try` — propagates the `OverflowError` that `float(int)` raises on integers of
magnitude at least `floatOverflowBound`.  In-range conversions are modelled as
the exact rational value (the rounding of doubles is not modelled; no claim
depends on the rounded magnitude of an in-range value). -/
def parse_numeric (v : PyValue) : Except PyExn (Option PyFloat) :=
  match v with
  | PyValue.none => Except.ok Option.none
  | PyValue.bool b =>
    Except.ok (Option.some (PyFloat.finite (if b then mkRat 1 1 else mkRat 0 1)))
  | PyValue.int z =>
    if floatOverflowBound ≤ z.natAbs then Except.error PyExn.overflowError
    else Except.ok (Option.some (PyFloat.finite (mkRat z 1)))
  | PyValue.float f => Except.ok (Option.some f)
  | PyValue.str s =>
    -- `value == ''` is the first test in the source; among the values a
    -- string can take it fires exactly on the empty string
    if s = "" then Except.ok Option.none
    else
      let s' := pyStrip (removeCommas s)
      if s' = "" || (pyLower s') ∈ ["na", "n/a", "null", "none"] then
        Except.ok Option.none
      else
        match pyFloatOfString s' with
        | Except.ok f => Except.ok (Option.some f)
        | Except.error PyExn.valueError => Except.ok Option.none
        | Except.error e => Except.error e
  | PyValue.other => Except.ok Option.none

/-! ## `parse_date` -/

/-- Month abbreviations recognised by `strptime` `%b` (case-insensitive). -/
def monthAbbrev (l : List Char) : Option ℕ :=
  match (⟨l.map Char.toLower⟩ : String) with
  | "jan" => Option.some 1
  | "feb" => Option.some 2
  | "mar" => Option.some 3
  | "apr" => Option.some 4
  | "may" => Option.some 5
  | "jun" => Option.some 6
  | "jul" => Option.some 7
  | "aug" => Option.some 8
  | "sep" => Option.some 9
  | "oct" => Option.some 10
  | "nov" => Option.some 11
  | "dec" => Option.some 12
  | _ => Option.none

/-- Greedily take one or two digits (`strptime` `%d`/`%m`). -/
def take2Digits : List Char → Option (ℕ × List Char)
  | a :: b :: rest =>
    if a.isDigit then
      if b.isDigit then Option.some (digitsVal [a, b], rest)
      else Option.some (digitsVal [a], b :: rest)
    else Option.none
  | [a] => if a.isDigit then Option.some (digitsVal [a], []) else Option.none
  | [] => Option.none

/-- Take exactly four digits (`strptime` `%Y`). -/
def take4Digits : List Char → Option (ℕ × List Char)
  | a :: b :: c :: d :: rest =>
    if a.isDigit && b.isDigit && c.isDigit && d.isDigit then
      Option.some (digitsVal [a, b, c, d], rest)
    else Option.none
  | _ => Option.none

/-- Take three letters forming a month abbreviation (`strptime` `%b`). -/
def takeMonth3 : List Char → Option (ℕ × List Char)
  | a :: b :: c :: rest =>
    match monthAbbrev [a, b, c] with
    | Option.some m => Option.some (m, rest)
    | Option.none => Option.none
  | _ => Option.none

/-- Consume one or more whitespace characters (a space in a `strptime`
format matches a whitespace run). -/
def takeSpace (l : List Char) : Option (List Char) :=
  match l with
  | c :: rest => if isPySpace c then Option.some (rest.dropWhile isPySpace) else Option.none
  | [] => Option.none

/-- Consume one expected literal character. -/
def takeLit (ch : Char) (l : List Char) : Option (List Char) :=
  match l with
  | c :: rest => if c = ch then Option.some rest else Option.none
  | [] => Option.none

def isLeapYear (y : ℕ) : Bool :=
  (y % 4 = 0 && y % 100 ≠ 0) || y % 400 = 0

def daysInMonth (y m : ℕ) : ℕ :=
  if m = 2 then (if isLeapYear y then 29 else 28)
  else if m ∈ [4, 6, 9, 11] then 30
  else 31

/-- A `(year, month, day)` triple `datetime` accepts. -/
def validDate (y m d : ℕ) : Bool :=
  1 ≤ m && m ≤ 12 && 1 ≤ d && d ≤ daysInMonth y m && 1 ≤ y && y ≤ 9999

/-- Try `strptime` format `'%d %b %Y'`. -/
def tryFmtDMonY (l : List Char) : Option (ℕ × ℕ × ℕ) := do
  let (d, r1) ← take2Digits l
  let r2 ← takeSpace r1
  let (m, r3) ← takeMonth3 r2
  let r4 ← takeSpace r3
  let (y, r5) ← take4Digits r4
  if r5 = [] && validDate y m d then pure (y, m, d) else failure

/-- Try `strptime` format `'%d-%b-%Y'`. -/
def tryFmtDdashMonY (l : List Char) : Option (ℕ × ℕ × ℕ) := do
  let (d, r1) ← take2Digits l
  let r2 ← takeLit '-' r1
  let (m, r3) ← takeMonth3 r2
  let r4 ← takeLit '-' r3
  let (y, r5) ← take4Digits r4
  if r5 = [] && validDate y m d then pure (y, m, d) else failure

/-- Try `strptime` format `'%Y-%m-%d'`. -/
def tryFmtYMD (l : List Char) : Option (ℕ × ℕ × ℕ) := do
  let (y, r1) ← take4Digits l
  let r2 ← takeLit '-' r1
  let (m, r3) ← take2Digits r2
  let r4 ← takeLit '-' r3
  let (d, r5) ← take2Digits r4
  if r5 = [] && validDate y m d then pure (y, m, d) else failure

/-- Try `strptime` format `'%d/%m/%Y'`. -/
def tryFmtDMY (l : List Char) : Option (ℕ × ℕ × ℕ) := do
  let (d, r1) ← take2Digits l
  let r2 ← takeLit '/' r1
  let (m, r3) ← take2Digits r2
  let r4 ← takeLit '/' r3
  let (y, r5) ← take4Digits r4
  if r5 = [] && validDate y m d then pure (y, m, d) else failure

/-- Left-pad a numeral with zeros to the given width (`strftime` padding). -/
def padNat (width n : ℕ) : String :=
  let s := toString n
  ⟨List.replicate (width - s.length) '0' ++ s.data⟩

/-- `parse_date` (parse_broze_agmarknet.py lines 231-269): strip the input and
try the formats `'%d %b %Y'`, `'%d-%b-%Y'`, `'%Y-%m-%d'`, `'%d/%m/%Y'` in
order; on success return the ISO date string and `(year, month, day)`; raise
`ValueError` (here: `none`) when no format matches. -/
def parse_date (dateStr : String) : Option (String × ℕ × ℕ × ℕ) :=
  let l := (pyStrip dateStr).data
  let r :=
    match tryFmtDMonY l with
    | Option.some v => Option.some v
    | Option.none =>
      match tryFmtDdashMonY l with
      | Option.some v => Option.some v
      | Option.none =>
        match tryFmtYMD l with
        | Option.some v => Option.some v
        | Option.none => tryFmtDMY l
  match r with
  | Option.some (y, m, d) =>
    Option.some (padNat 4 y ++ "-" ++ padNat 2 m ++ "-" ++ padNat 2 d, y, m, d)
  | Option.none => Option.none

/-! ## JSON (`json.loads`) and `parse_json_payload` -/

/-- A JSON value as returned by `json.loads`.  Objects are association lists
(none of the payloads evaluated here has duplicate keys). -/
inductive Json where
  | null
  | bool (b : Bool)
  | num (q : ℚ)
  | str (s : String)
  | arr (xs : List Json)
  | obj (kvs : List (String × Json))

/-- JSON whitespace. -/
def isJsonWs (c : Char) : Bool :=
  c = ' ' || c = '\t' || c = '\n' || c = '\r'

def skipWs (l : List Char) : List Char :=
  l.dropWhile isJsonWs

/-- Parse the body of a JSON string (after the opening quote), handling the
simple escapes; `\u` escapes are outside the model (no payload here uses
them). -/
def parseJsonStrBodyF : ℕ → List Char → Option (List Char × List Char)
  | 0, _ => Option.none
  | _ + 1, [] => Option.none
  | _ + 1, '"' :: rest => Option.some ([], rest)
  | fuel + 1, '\\' :: e :: rest =>
    match
      (match e with
       | '"' => Option.some '"'
       | '\\' => Option.some '\\'
       | '/' => Option.some '/'
       | 'n' => Option.some '\n'
       | 't' => Option.some '\t'
       | 'r' => Option.some '\r'
       | 'b' => Option.some '\x08'
       | 'f' => Option.some '\x0c'
       | _ => Option.none) with
    | Option.some c =>
      match parseJsonStrBodyF fuel rest with
      | Option.some (cs, r) => Option.some (c :: cs, r)
      | Option.none => Option.none
    | Option.none => Option.none
  | fuel + 1, c :: rest =>
    match parseJsonStrBodyF fuel rest with
    | Option.some (cs, r) => Option.some (c :: cs, r)
    | Option.none => Option.none

def parseJsonStrBody (l : List Char) : Option (List Char × List Char) :=
  parseJsonStrBodyF (l.length + 1) l

/-- Parse a JSON number. -/
def parseJsonNum (l : List Char) : Option (ℚ × List Char) :=
  let (neg, l1) :=
    match l with
    | '-' :: r => (true, r)
    | _ => (false, l)
  let ip := l1.takeWhile Char.isDigit
  let r1 := l1.dropWhile Char.isDigit
  if ip = [] then Option.none
  else
    let (fp, r2) :=
      match r1 with
      | '.' :: r =>
        let ds := r.takeWhile Char.isDigit
        (ds, r.dropWhile Char.isDigit)
      | _ => ([], r1)
    let expPart : Option ((Bool × ℕ) × List Char) :=
      match r2 with
      | 'e' :: r | 'E' :: r =>
        let (esgn, r3) :=
          match r with
          | '+' :: rr => (false, rr)
          | '-' :: rr => (true, rr)
          | _ => (false, r)
        let ds := r3.takeWhile Char.isDigit
        if ds = [] then Option.none
        else Option.some ((esgn, digitsVal ds), r3.dropWhile Char.isDigit)
      | _ => Option.some ((false, 0), r2)
    match expPart with
    | Option.none => Option.none
    | Option.some ((esgn, emag), rest) =>
      let mant : ℕ := digitsVal ip * 10 ^ fp.length + digitsVal fp
      let q : ℚ :=
        if esgn then mkRat (Int.ofNat mant) (10 ^ fp.length * 10 ^ emag)
        else mkRat (Int.ofNat (mant * 10 ^ emag)) (10 ^ fp.length)
      Option.some ((if neg then -q else q), rest)

/-- Mode tag for the single JSON recursive-descent function: parse one value,
a run of array items, or a run of object members. -/
inductive JMode where
  | value
  | items
  | members

/-- Fuel-indexed JSON recursive-descent parser (the fuel bounds the number of
recursive descents; `jsonLoads` supplies more than enough).  In `items` mode
the result is wrapped as `Json.arr`, in `members` mode as `Json.obj`. -/
def parseJ : ℕ → JMode → List Char → Option (Json × List Char)
  | 0, _, _ => Option.none
  | fuel + 1, JMode.value, l =>
    match skipWs l with
    | '{' :: rest =>
      match skipWs rest with
      | '}' :: r2 => Option.some (Json.obj [], r2)
      | _ => parseJ fuel JMode.members (skipWs rest)
    | '[' :: rest =>
      match skipWs rest with
      | ']' :: r2 => Option.some (Json.arr [], r2)
      | _ => parseJ fuel JMode.items (skipWs rest)
    | '"' :: rest =>
      match parseJsonStrBody rest with
      | Option.some (cs, r) => Option.some (Json.str ⟨cs⟩, r)
      | Option.none => Option.none
    | 't' :: 'r' :: 'u' :: 'e' :: rest => Option.some (Json.bool true, rest)
    | 'f' :: 'a' :: 'l' :: 's' :: 'e' :: rest => Option.some (Json.bool false, rest)
    | 'n' :: 'u' :: 'l' :: 'l' :: rest => Option.some (Json.null, rest)
    | other =>
      match parseJsonNum other with
      | Option.some (q, rest) => Option.some (Json.num q, rest)
      | Option.none => Option.none
  | fuel + 1, JMode.items, l =>
    match parseJ fuel JMode.value l with
    | Option.none => Option.none
    | Option.some (v, rest) =>
      match skipWs rest with
      | ',' :: r2 =>
        match parseJ fuel JMode.items (skipWs r2) with
        | Option.some (Json.arr xs, r3) => Option.some (Json.arr (v :: xs), r3)
        | _ => Option.none
      | ']' :: r2 => Option.some (Json.arr [v], r2)
      | _ => Option.none
  | fuel + 1, JMode.members, l =>
    match l with
    | '"' :: rest =>
      match parseJsonStrBody rest with
      | Option.none => Option.none
      | Option.some (key, r1) =>
        match skipWs r1 with
        | ':' :: r2 =>
          match parseJ fuel JMode.value (skipWs r2) with
          | Option.none => Option.none
          | Option.some (v, r3) =>
            match skipWs r3 with
            | ',' :: r4 =>
              match parseJ fuel JMode.members (skipWs r4) with
              | Option.some (Json.obj kvs, r5) =>
                Option.some (Json.obj ((⟨key⟩, v) :: kvs), r5)
              | _ => Option.none
            | '}' :: r4 => Option.some (Json.obj [(⟨key⟩, v)], r4)
            | _ => Option.none
        | _ => Option.none
    | _ => Option.none

def parseJsonValue (fuel : ℕ) (l : List Char) : Option (Json × List Char) :=
  parseJ fuel JMode.value l

/-- `json.loads`: parse a whole JSON document; trailing non-whitespace is an
error. -/
def jsonLoads (s : String) : Option Json :=
  match parseJsonValue (s.length + 2) s.data with
  | Option.some (v, rest) => if skipWs rest = [] then Option.some v else Option.none
  | Option.none => Option.none

/-- `parse_json_payload` (parse_broze_agmarknet.py lines 293-323): for
`data_format = 'jsonl'`, strip the payload, split on newlines, and parse each
non-blank line, silently skipping (with a warning) lines that fail to parse;
otherwise parse the whole payload, returning a list as-is, wrapping any other
value in a one-element list, and returning `[]` when the whole-text parse
fails. -/
def parse_json_payload (payload : String) (dataFormat : String) : List Json :=
  if dataFormat = "jsonl" then
    (pySplitNewline (pyStrip payload)).filterMap fun line =>
      if pyStrip line = "" then Option.none else jsonLoads line
  else
    match jsonLoads payload with
    | Option.some (Json.arr xs) => xs
    | Option.some v => [v]
    | Option.none => []

/-- Modelled from the spec: the PayloadParser contract of section 4.4 as the
spec words it — "detect by attempting whole-text JSON parse first, falling
back to line-by-line parse" when the whole-text parse fails.  Stated for the
refinement comparison with `parse_json_payload`, which the source actually
dispatches on the stored `data_format` instead. -/
def parseJsonPayloadSpec (payload : String) : List Json :=
  match jsonLoads payload with
  | Option.some (Json.arr xs) => xs
  | Option.some v => [v]
  | Option.none =>
    (pySplitNewline payload).filterMap fun line =>
      if pyStrip line = "" then Option.none else jsonLoads line

/-! ## The bronze-rows store and the record versioner -/

/-- The immutable portion of an `agmarknet_bronze_rows` row: every column the
per-record INSERT of `process_file_records` writes except the supersession
fields (`is_latest`, `superseded_by`, `superseded_at`, `updated_at`), which
are the only columns `update_superseded_sql` ever touches. -/
structure RowCore where
  rowId : String
  fileId : String
  country : String
  stateName : Option String
  districtName : Option String
  marketName : String
  marketNameNorm : Option String
  commodityName : String
  commodityGroup : Option String
  variety : Option String
  grade : Option String
  reportedDate : String
  year : ℕ
  month : ℕ
  day : ℕ
  arrivals : Option PyFloat
  minPrice : Option PyFloat
  maxPrice : Option PyFloat
  modalPrice : Option PyFloat
  hasNulls : Bool
  isComplete : Bool
  nullFieldCount : ℕ
  recordHash : String
  version : ℕ
  ingestJobId : String
  ingestTs : ℕ
  sourceRowNumber : ℕ
  createdAt : ℕ
deriving DecidableEq, Repr

/-- A stored `agmarknet_bronze_rows` row. -/
structure Row where
  core : RowCore
  isLatest : Bool
  supersededBy : Option String
  supersededAt : Option ℕ
  updatedAt : ℕ
deriving DecidableEq, Repr

/-- SQL `COALESCE(x, '')`. -/
def coalesce (o : Option String) : String := o.getD ""

/-- The natural key the versioner groups by: the five columns of the WHERE
clause of `get_existing_row_versions` (raw market name, commodity, coalesced
variety and grade, reported date). -/
abbrev RowKey := String × String × String × String × String

def coreKey (c : RowCore) : RowKey :=
  (c.marketName, c.commodityName, coalesce c.variety, coalesce c.grade,
   c.reportedDate)

def rowKey (r : Row) : RowKey :=
  coreKey r.core

/-- Insert into a version-descending list, keeping larger versions first. -/
def insertDesc (r : Row) : List Row → List Row
  | [] => [r]
  | x :: xs =>
    if x.core.version ≤ r.core.version then r :: x :: xs else x :: insertDesc r xs

/-- `ORDER BY version DESC`. -/
def sortByVersionDesc (l : List Row) : List Row :=
  l.foldr insertDesc []

/-- `get_existing_row_versions` (parse_broze_agmarknet.py lines 326-371):
all rows whose raw `market_name`, `commodity_name`, `COALESCE(variety, '')`,
`COALESCE(grade, '')` and `reported_date` equal the arguments, ordered by
version descending. -/
def get_existing_row_versions (store : List Row)
    (marketName commodityName variety grade reportedDate : String) : List Row :=
  sortByVersionDesc (store.filter fun r =>
    decide (rowKey r = (marketName, commodityName, variety, grade, reportedDate)))

/-- `compute_row_id` (lines 181-191): the digest of the pipe-joined key
string.  `H` stands for `sha256(...).hexdigest()[:32]`; the variety and grade
arguments are the already-coalesced strings (`variety or ''`). -/
def compute_row_id (H : String → String)
    (fileId marketName commodityName variety grade reportedDate : String) : String :=
  H (fileId ++ "|" ++ marketName ++ "|" ++ commodityName ++ "|" ++ variety ++ "|"
     ++ grade ++ "|" ++ reportedDate)

/-- Decimal digits of the fractional part `num/den` (long division, at most
`fuel` digits; every value reaching it here terminates long before). -/
def fracDigits : ℕ → ℕ → ℕ → List Char
  | 0, _, _ => []
  | _ + 1, 0, _ => []
  | fuel + 1, num, den =>
    let num10 := num * 10
    let d := num10 / den
    Char.ofNat ('0'.toNat + d) :: fracDigits fuel (num10 % den) den

/-- `json.dumps` rendering of one measurement value: `null` for missing,
otherwise the float repr (`2000.0`, `1234.5`, ...). -/
def pyFloatJsonRepr : Option PyFloat → String
  | Option.none => "null"
  | Option.some PyFloat.inf => "Infinity"
  | Option.some PyFloat.neginf => "-Infinity"
  | Option.some PyFloat.nan => "NaN"
  | Option.some (PyFloat.finite q) =>
    let sign := if q.num < 0 then "-" else ""
    let n := q.num.natAbs
    let ip := n / q.den
    let rem := n % q.den
    let fds := fracDigits 40 rem q.den
    sign ++ toString ip ++ "." ++ (if fds = [] then "0" else (⟨fds⟩ : String))

/-- `compute_record_hash` (lines 194-202): the digest of
`json.dumps` of the four measurement fields in sorted key order
(`arrivals`, `max_price`, `min_price`, `modal_price`).  `H` stands for
`sha256(...).hexdigest()[:32]`. -/
def compute_record_hash (H : String → String)
    (arrivals minPrice maxPrice modalPrice : Option PyFloat) : String :=
  H ("\x7b\"arrivals\": " ++ pyFloatJsonRepr arrivals
     ++ ", \"max_price\": " ++ pyFloatJsonRepr maxPrice
     ++ ", \"min_price\": " ++ pyFloatJsonRepr minPrice
     ++ ", \"modal_price\": " ++ pyFloatJsonRepr modalPrice ++ "\x7d")

/-- Outcome of the versioning step for one record.  `insertError` is the
path where the `INSERT` (line 532) violates the `row_id VARCHAR PRIMARY KEY`
constraint of the table (schema line 95) because a stored row already
carries the new `row_id`; the raised constraint exception is caught by the
per-record `except` (line 552). -/
inductive VOutcome where
  | insertedNew
  | skippedUnchanged
  | supersededInserted
  | insertError
deriving DecidableEq, Repr

/-- The versioning core of `process_file_records` (lines 500-542): look up the
existing versions of the record's natural key; if none exist insert version 1
as latest; if the latest version's `record_hash` equals the new one, skip;
otherwise mark the latest row superseded (pointing `superseded_by` at the new
row id) and insert the next version as latest.  `core.version` is ignored on
input and set here.  Either `INSERT` fails when the table already holds a row
with the new `row_id` (PRIMARY KEY); on the supersession path the `UPDATE`
(line 523) has already executed and committed by then — each `con.execute`
auto-commits and the `except` at line 552 performs no rollback — so the
failure state keeps the superseded mark but gains no new row. -/
def version_step (store : List Row) (core : RowCore) (now : ℕ) :
    List Row × VOutcome :=
  let existing := get_existing_row_versions store core.marketName
    core.commodityName (coalesce core.variety) (coalesce core.grade)
    core.reportedDate
  match existing with
  | [] =>
    if store.any fun r => r.core.rowId == core.rowId then
      (store, VOutcome.insertError)
    else
      (store ++ [{ core := { core with version := 1 }, isLatest := true,
                   supersededBy := Option.none, supersededAt := Option.none,
                   updatedAt := now }],
       VOutcome.insertedNew)
  | latest :: _ =>
    if latest.core.recordHash = core.recordHash then
      (store, VOutcome.skippedUnchanged)
    else
      let updated := store.map fun r =>
        if r.core.rowId = latest.core.rowId then
          { r with isLatest := false, supersededBy := Option.some core.rowId,
                   supersededAt := Option.some now, updatedAt := now }
        else r
      if updated.any fun r => r.core.rowId == core.rowId then
        (updated, VOutcome.insertError)
      else
        (updated ++ [{ core := { core with version := latest.core.version + 1 },
                       isLatest := true, supersededBy := Option.none,
                       supersededAt := Option.none, updatedAt := now }],
         VOutcome.supersededInserted)

/-! ## Per-record processing (`process_file_records` loop body) -/

/-- A payload record as the loop body consumes it, typed per the fields it
accesses.  `Option String` fields are `none` when the field is absent from
the JSON object (the code then reads the `.get` default `''`); the four
measurement fields distinguish an absent field (`none`) from a present null
(`some PyValue.none`), which is what `check_data_quality` distinguishes. -/
structure InputRecord where
  reportedDate : Option String
  stateName : Option String
  districtName : Option String
  marketName : Option String
  commodityName : Option String
  group : Option String
  variety : Option String
  grade : Option String
  arrivals : Option PyValue
  minPrice : Option PyValue
  maxPrice : Option PyValue
  modalPrice : Option PyValue
deriving DecidableEq, Repr

/-- `record.get(field, '').strip() or None`. -/
def stripOrNone (o : Option String) : Option String :=
  match o with
  | Option.none => Option.none
  | Option.some s =>
    let t := pyStrip s
    if t = "" then Option.none else Option.some t

/-- `check_data_quality` (lines 205-228): count required identity fields that
are absent/null/empty and measurement fields that are present but null;
returns `(has_nulls, is_complete, null_field_count)`. -/
def check_data_quality (rec : InputRecord) : Bool × Bool × ℕ :=
  let reqMissing := fun (o : Option String) =>
    decide (o = Option.none) || decide (o = Option.some "")
  let reqs := [rec.stateName, rec.districtName, rec.marketName,
               rec.commodityName, rec.reportedDate]
  let missing := reqs.countP reqMissing
  let prices := [rec.arrivals, rec.minPrice, rec.maxPrice, rec.modalPrice]
  let nullPrices := prices.countP fun o => decide (o = Option.some PyValue.none)
  (decide (nullPrices ≠ 0), decide (missing = 0), missing + nullPrices)

/-- Outcome of the loop body for one record. -/
inductive ROutcome where
  | droppedMissingDate
  | droppedBadDate
  | droppedMissingKey
  | numericError
  | versioned (v : VOutcome)
deriving DecidableEq, Repr

/-- The loop body of `process_file_records` (lines 448-544) for one record:
validate `reported_date`, parse the date, extract and strip the text fields,
drop records missing market or commodity, normalize the market name, coerce
the four numeric fields, compute `row_id` and `record_hash`, assess quality,
and run the versioning step.  `Hrow`/`Hhash` stand for the two
`sha256(...).hexdigest()[:32]` digests. -/
def process_record (Hrow Hhash : String → String) (store : List Row)
    (fileId : String) (rec : InputRecord) (idx : ℕ) (runId : String)
    (now : ℕ) : List Row × ROutcome :=
  match rec.reportedDate with
  | Option.none => (store, ROutcome.droppedMissingDate)
  | Option.some rd =>
    if rd = "" then (store, ROutcome.droppedMissingDate)
    else
      match parse_date rd with
      | Option.none => (store, ROutcome.droppedBadDate)
      | Option.some (dateIso, year, month, day) =>
        let stateName := stripOrNone rec.stateName
        let districtName := stripOrNone rec.districtName
        let marketNameO := stripOrNone rec.marketName
        let commodityNameO := stripOrNone rec.commodityName
        let commodityGroup := stripOrNone rec.group
        let variety := stripOrNone rec.variety
        let grade := stripOrNone rec.grade
        match marketNameO, commodityNameO with
        | Option.some marketName, Option.some commodityName =>
          let marketNameNorm := normalize_place_name (Option.some marketName)
          match parse_numeric (rec.arrivals.getD PyValue.none),
                parse_numeric (rec.minPrice.getD PyValue.none),
                parse_numeric (rec.maxPrice.getD PyValue.none),
                parse_numeric (rec.modalPrice.getD PyValue.none) with
          | Except.ok arrivals, Except.ok minPrice, Except.ok maxPrice,
            Except.ok modalPrice =>
            let rowId := compute_row_id Hrow fileId marketName commodityName
              (coalesce variety) (coalesce grade) dateIso
            let recordHash := compute_record_hash Hhash arrivals minPrice
              maxPrice modalPrice
            let q := check_data_quality rec
            let core : RowCore :=
              { rowId := rowId, fileId := fileId, country := "IN",
                stateName := stateName, districtName := districtName,
                marketName := marketName, marketNameNorm := marketNameNorm,
                commodityName := commodityName,
                commodityGroup := commodityGroup, variety := variety,
                grade := grade, reportedDate := dateIso, year := year,
                month := month, day := day, arrivals := arrivals,
                minPrice := minPrice, maxPrice := maxPrice,
                modalPrice := modalPrice, hasNulls := q.1,
                isComplete := q.2.1, nullFieldCount := q.2.2,
                recordHash := recordHash, version := 1,
                ingestJobId := runId, ingestTs := now,
                sourceRowNumber := idx + 1, createdAt := now }
            let res := version_step store core now
            (res.1, ROutcome.versioned res.2)
          | _, _, _, _ => (store, ROutcome.numericError)
        | _, _ => (store, ROutcome.droppedMissingKey)

/-! ## `file_checksum` (ingest_bronze_common.py lines 40-109) -/

/-- Read a byte list in chunks of `size` bytes (the `f.read(chunk_size)`
loop).  Fuel-indexed; `size ≥ 1` and fuel `≥ length + 1` make the fuel case
unreachable, and the fuel case is join-preserving anyway. -/
def chunkedF : ℕ → ℕ → List ℕ → List (List ℕ)
  | 0, _, l => if l.isEmpty then [] else [l]
  | _ + 1, _, [] => []
  | fuel + 1, size, a :: l =>
    (a :: l).take size :: chunkedF fuel size ((a :: l).drop size)

def chunked (size : ℕ) (l : List ℕ) : List (List ℕ) :=
  chunkedF (l.length + 1) size l

/-- The chunk size of `file_checksum` (64KB). -/
def CHUNK_SIZE : ℕ := 65536

/-- `file_checksum`: hash the UTF-8 bytes of the resolved absolute path, a
`\x00` separator byte, then the file content read in 64KB chunks.  `H`
abstracts `hashlib.new("sha256")`-then-`hexdigest` over the concatenation of
all `update` calls; `include_path` defaults to `True` at every call site in
the pipeline. -/
def file_checksum {α : Type} (H : List ℕ → α)
    (resolvedPathBytes content : List ℕ) (includePath : Bool) : α :=
  H ((if includePath then resolvedPathBytes ++ [0] else [])
     ++ (chunked CHUNK_SIZE content).flatten)

/-! ## The ingestion scan (ingest_bronze_agmarket.py `main`, lines 436-607) -/

/-- The metadata record `parse_file_metadata` (lines 338-421) returns for one
file, restricted to the fields the scan loop reads and stores. -/
structure FileMeta where
  fileId : String
  checksum : String
  originalFilename : String
  filePath : String
  fileSizeBytes : ℕ
  year : ℕ
  month : ℕ
  rawPayload : String
  rowCount : ℕ
  dataFormat : String
  partitionPath : String
  ingestDurationMs : ℕ
deriving DecidableEq, Repr

/-- What the `try` body of the scan loop does for one file before the
duplicate check: either yields the file's metadata (checksum included) or
raises.  The error carries the exception type name recorded in the
manifest. -/
structure ScanFile where
  path : String
  fname : String
  result : Except String FileMeta
deriving Repr

/-- The scan loop's extension filter (`fname.endswith('.json') or
fname.endswith('.jsonl')`): only `.json` and `.jsonl` files are processed at
all. -/
def isDataFile (fname : String) : Bool :=
  ".json".data.isSuffixOf fname.data || ".jsonl".data.isSuffixOf fname.data

/-- The state the ingestion `main` threads through the scan: the
`agmarknet_bronze_files` table, the in-memory `existing_checksums` set
(modelled as a list, membership-only), and the run manifest counters and
entry lists. -/
structure IngestState where
  store : List FileMeta
  existing : List String
  scanned : ℕ
  ingested : ℕ
  skipped : ℕ
  errored : ℕ
  rowsIngested : ℕ
  ingestedFiles : List (String × String)
  skippedFiles : List (String × String × String)
  errors : List (String × String)
deriving Repr

/-- One iteration of the scan loop (lines 504-581): skip non-data filenames;
on a raised exception record `(path, error_type)` in `errors` and bump
`files_errored`; on a checksum already in `existing_checksums` record the
skip; otherwise insert the bronze-file record, add the checksum to the
in-memory set, and bump the ingested counters. -/
def ingestStep (s : IngestState) (f : ScanFile) : IngestState :=
  if !isDataFile f.fname then s
  else
    let s := { s with scanned := s.scanned + 1 }
    match f.result with
    | Except.error e =>
      { s with errors := s.errors ++ [(f.path, e)], errored := s.errored + 1 }
    | Except.ok meta =>
      if meta.checksum ∈ s.existing then
        { s with
          skippedFiles := s.skippedFiles ++ [(f.path, meta.checksum, "already_ingested")],
          skipped := s.skipped + 1 }
      else
        { s with
          store := s.store ++ [meta],
          existing := s.existing ++ [meta.checksum],
          ingestedFiles := s.ingestedFiles ++ [(f.path, meta.fileId)],
          ingested := s.ingested + 1,
          rowsIngested := s.rowsIngested + meta.rowCount }

/-- The whole scan over the walked file list. -/
def runIngest (files : List ScanFile) (s : IngestState) : IngestState :=
  files.foldl ingestStep s

/-- The state a run starts from: the current table contents, the
`existing_checksums` set loaded once by `get_existing_checksums`
(lines 423-430: `SELECT checksum FROM table`), and a fresh manifest. -/
def freshState (store : List FileMeta) : IngestState :=
  { store := store, existing := store.map (·.checksum),
    scanned := 0, ingested := 0, skipped := 0, errored := 0,
    rowsIngested := 0, ingestedFiles := [], skippedFiles := [], errors := [] }

/-! ## Helper lemmas -/

theorem pyStripList_eq_nil_all_space {l : List Char} (h : pyStripList l = []) :
    ∀ c ∈ l, isPySpace c := by
  unfold pyStripList at h
  rw [List.reverse_eq_nil_iff] at h
  rw [List.dropWhile_eq_nil_iff] at h
  intro c hc
  rcases (List.takeWhile_append_dropWhile (p := isPySpace) (l := l)) ▸ hc
      |> List.mem_append.mp with h1 | h2
  · exact List.mem_takeWhile_imp h1
  · exact h _ (List.mem_reverse.mpr h2)

theorem isPySpace_ne_comma {c : Char} (h : isPySpace c) : c ≠ ',' := by
  intro hc
  subst hc
  exact absurd h (by decide)

/-- A whitespace-only string is unchanged by comma removal. -/
theorem removeCommas_of_all_space {s : String} (h : pyStrip s = "") :
    removeCommas s = s := by
  have hall : ∀ c ∈ s.data, isPySpace c := by
    apply pyStripList_eq_nil_all_space
    have := congrArg String.data h
    simpa [pyStrip] using this
  cases s with
  | mk data =>
  show String.mk (data.filter _) = String.mk data
  congr 1
  apply List.filter_eq_self.mpr
  intro c hc
  simpa using isPySpace_ne_comma (hall c hc)

/-- The only exception `float()` raises on a string is `ValueError`. -/
theorem pyFloatOfString_not_other (s : String) {e : PyExn}
    (he : e ≠ PyExn.valueError) : pyFloatOfString s ≠ Except.error e := by
  intro h
  simp only [pyFloatOfString] at h
  split at h <;> simp at h
  exact he h.symm

/-- `parse_numeric` never raises on a string: the only exception the string
branch can raise internally is the `ValueError` from `float()`, and the code
catches exactly that. -/
theorem parse_numeric_str_total (s : String) :
    ∃ r, parse_numeric (PyValue.str s) = Except.ok r := by
  simp only [parse_numeric]
  split
  · exact ⟨_, rfl⟩
  · split
    · exact ⟨_, rfl⟩
    · split
      all_goals try exact ⟨_, rfl⟩
      rename_i e hne heq
      cases e
      · exact absurd rfl hne
      · exact absurd heq (pyFloatOfString_not_other _ (by decide))
      · exact absurd heq (pyFloatOfString_not_other _ (by decide))

/-- `10 ^ 400` overflows a double. -/
theorem floatOverflowBound_le_ten_pow :
    floatOverflowBound ≤ ((10 : ℤ) ^ 400).natAbs := by
  rw [Int.natAbs_pow]
  have ha : (10 : ℤ).natAbs = 10 := rfl
  rw [ha]
  unfold floatOverflowBound
  have h1 : (2 : ℕ) ^ 1024 ≤ 2 ^ 1200 :=
    Nat.pow_le_pow_right (by norm_num) (by norm_num)
  have h2 : (2 : ℕ) ^ 1200 = (2 ^ 3) ^ 400 := by
    rw [← pow_mul]
  have h3 : ((2 : ℕ) ^ 3) ^ 400 ≤ 10 ^ 400 :=
    Nat.pow_le_pow_left (by norm_num) 400
  have h4 : (2 : ℕ) ^ 1024 - 2 ^ 970 ≤ 2 ^ 1024 := Nat.sub_le _ _
  omega

/-- 42 does not overflow a double. -/
theorem small_lt_floatOverflowBound : ((42 : ℤ)).natAbs < floatOverflowBound := by
  unfold floatOverflowBound
  have h1 : (2 : ℕ) ^ 970 * 2 ≤ 2 ^ 1024 := by
    rw [← pow_succ]
    exact Nat.pow_le_pow_right (by norm_num) (by norm_num)
  have h2 : (42 : ℤ).natAbs < (2 : ℕ) ^ 970 :=
    lt_of_lt_of_le (by norm_num)
      (Nat.pow_le_pow_right (by norm_num) (by norm_num : 6 ≤ 970))
  omega

/-- `2 ^ 1024` overflows a double. -/
theorem floatOverflowBound_le_two_pow :
    floatOverflowBound ≤ ((2 : ℤ) ^ 1024).natAbs := by
  rw [Int.natAbs_pow]
  unfold floatOverflowBound
  exact Nat.sub_le _ _

/-- An int below the double-overflow bound converts exactly. -/
theorem parse_numeric_int_small {z : ℤ} (h : z.natAbs < floatOverflowBound) :
    parse_numeric (PyValue.int z)
      = Except.ok (Option.some (PyFloat.finite (mkRat z 1))) := by
  simp only [parse_numeric]
  rw [if_neg (Nat.not_le.mpr h)]

/-- An int at or beyond the double-overflow bound makes the uncaught
`float(value)` call raise `OverflowError`. -/
theorem parse_numeric_int_overflow {z : ℤ} (h : floatOverflowBound ≤ z.natAbs) :
    parse_numeric (PyValue.int z) = Except.error PyExn.overflowError := by
  simp only [parse_numeric]
  rw [if_pos h]

/-- Blank strings (whitespace-only) coerce to missing. -/
theorem parse_numeric_blank {s : String} (h : pyStrip s = "") :
    parse_numeric (PyValue.str s) = Except.ok Option.none := by
  by_cases hs : s = ""
  · subst hs; rfl
  · have h2 : removeCommas s = s := removeCommas_of_all_space h
    simp only [parse_numeric, if_neg hs]
    rw [h2, h]
    simp

/-- Strings whose comma-stripped, lower-cased core is one of the sentinels
coerce to missing. -/
theorem parse_numeric_sentinel {s : String}
    (h : pyLower (pyStrip (removeCommas s)) ∈ (["na", "n/a", "null", "none"] : List String)) :
    parse_numeric (PyValue.str s) = Except.ok Option.none := by
  by_cases hs : s = ""
  · subst hs; rfl
  · simp only [parse_numeric, if_neg hs]
    simp [h]

/-! ## Claim theorems: numeric coercion -/

/-- C8: `parse_numeric` maps `""` to missing, `"N/A"` to missing, `"1,234.5"`
to the number 1234.5, and `None` to missing; every blank string and every
letter-case variant of the sentinels `na`/`n/a`/`null`/`none` (commas
removed) normalizes to missing; and no string input ever raises: every
string value yields an `Except.ok` result. -/
theorem claim_C8_numeric_coercion :
    parse_numeric (PyValue.str "") = Except.ok Option.none ∧
    parse_numeric (PyValue.str "N/A") = Except.ok Option.none ∧
    parse_numeric (PyValue.str "1,234.5")
      = Except.ok (Option.some (PyFloat.finite (1234.5 : ℚ))) ∧
    parse_numeric PyValue.none = Except.ok Option.none ∧
    (∀ s : String, pyStrip s = "" →
      parse_numeric (PyValue.str s) = Except.ok Option.none) ∧
    (∀ s : String,
      pyLower (pyStrip (removeCommas s)) ∈ (["na", "n/a", "null", "none"] : List String) →
      parse_numeric (PyValue.str s) = Except.ok Option.none) ∧
    (∀ s : String, ∃ r, parse_numeric (PyValue.str s) = Except.ok r) := by
  refine ⟨rfl, rfl, ?_, rfl, fun s h => parse_numeric_blank h,
    fun s h => parse_numeric_sentinel h, parse_numeric_str_total⟩
  have h1 : parse_numeric (PyValue.str "1,234.5")
      = Except.ok (Option.some (PyFloat.finite (mkRat 12345 10))) := rfl
  rw [h1]
  norm_num [Rat.mkRat_eq_div]

/-- Witness for C8: the quantified parts evaluated at concrete inputs — the
blank string `"  "`, the sentinel variants `"NuLL"` and `"n/A"`, and totality
at the non-numeric string `"12x"`. -/
theorem claim_C8_numeric_coercion_witness :
    parse_numeric (PyValue.str "  ") = Except.ok Option.none ∧
    parse_numeric (PyValue.str "NuLL") = Except.ok Option.none ∧
    parse_numeric (PyValue.str "n/A") = Except.ok Option.none ∧
    (∃ r, parse_numeric (PyValue.str "12x") = Except.ok r) :=
  ⟨claim_C8_numeric_coercion.2.2.2.2.1 "  " rfl,
   claim_C8_numeric_coercion.2.2.2.2.2.1 "NuLL" (by decide),
   claim_C8_numeric_coercion.2.2.2.2.2.1 "n/A" (by decide),
   claim_C8_numeric_coercion.2.2.2.2.2.2 "12x"⟩

/-- Counterexample for C10: `parse_numeric` is not total.  On the integer
`10 ^ 400` the branch `return float(value)` (line 278) sits outside any
`try`, and `float(int)` raises `OverflowError` on integers too large for a
double, so the call propagates an exception instead of returning. -/
theorem claim_C10_totality_counterexample :
    parse_numeric (PyValue.int (10 ^ 400)) = Except.error PyExn.overflowError :=
  parse_numeric_int_overflow floatOverflowBound_le_ten_pow

/-- C10 as amended: `parse_numeric` is total on every input shape except huge
integers — it returns `Except.ok` of a float or a missing value for `None`,
for every string (including non-numeric ones such as `"abc"`), for bools,
floats, non-numeric objects, and for every int whose magnitude stays below
the double-overflow bound `2^1024 - 2^970`; but on an int at or beyond that
bound the uncaught `float(value)` call raises `OverflowError`. -/
theorem claim_C10_parse_numeric_total_amended :
    (∀ s : String, ∃ r : Option PyFloat,
      parse_numeric (PyValue.str s) = Except.ok r) ∧
    parse_numeric (PyValue.str "abc") = Except.ok Option.none ∧
    parse_numeric PyValue.other = Except.ok Option.none ∧
    parse_numeric PyValue.none = Except.ok Option.none ∧
    (∀ b : Bool, ∃ r : Option PyFloat,
      parse_numeric (PyValue.bool b) = Except.ok r) ∧
    (∀ f : PyFloat, parse_numeric (PyValue.float f)
      = Except.ok (Option.some f)) ∧
    (∀ z : ℤ, z.natAbs < floatOverflowBound →
      parse_numeric (PyValue.int z)
        = Except.ok (Option.some (PyFloat.finite (mkRat z 1)))) ∧
    (∀ z : ℤ, floatOverflowBound ≤ z.natAbs →
      parse_numeric (PyValue.int z) = Except.error PyExn.overflowError) :=
  ⟨parse_numeric_str_total, rfl, rfl, rfl, fun b => ⟨_, rfl⟩, fun f => rfl,
   fun z h => parse_numeric_int_small h, fun z h => parse_numeric_int_overflow h⟩

/-- Witness for C10's amended theorem: totality at a concrete non-numeric
string, exact conversion of the in-range int 42, and the overflow of
`2 ^ 1024`. -/
theorem claim_C10_parse_numeric_total_amended_witness :
    (∃ r : Option PyFloat,
      parse_numeric (PyValue.str "not a number") = Except.ok r) ∧
    parse_numeric (PyValue.int 42)
      = Except.ok (Option.some (PyFloat.finite (mkRat 42 1))) ∧
    parse_numeric (PyValue.int (2 ^ 1024)) = Except.error PyExn.overflowError :=
  ⟨claim_C10_parse_numeric_total_amended.1 "not a number",
   claim_C10_parse_numeric_total_amended.2.2.2.2.2.2.1 42
     small_lt_floatOverflowBound,
   claim_C10_parse_numeric_total_amended.2.2.2.2.2.2.2 (2 ^ 1024)
     floatOverflowBound_le_two_pow⟩

/-! ## Claim theorems: the content-addressed checksum -/

/-- Reading in chunks loses nothing: the concatenation of the chunks is the
original byte list, for any fuel and chunk size. -/
theorem chunkedF_flatten : ∀ (fuel size : ℕ) (l : List ℕ),
    (chunkedF fuel size l).flatten = l
  | 0, _, l => by cases l <;> simp [chunkedF]
  | _ + 1, _, [] => by simp [chunkedF]
  | fuel + 1, size, a :: l => by
    simp only [chunkedF, List.flatten_cons,
      chunkedF_flatten fuel size ((a :: l).drop size)]
    exact List.take_append_drop size (a :: l)

theorem chunked_flatten (size : ℕ) (l : List ℕ) : (chunked size l).flatten = l :=
  chunkedF_flatten _ _ _

/-- Lists delimited by an element absent from their prefixes split
uniquely. -/
theorem append_delim_inj {α : Type} {d : α} :
    ∀ {p1 p2 c1 c2 : List α}, d ∉ p1 → d ∉ p2 →
    p1 ++ d :: c1 = p2 ++ d :: c2 → p1 = p2 ∧ c1 = c2
  | [], p2, c1, c2, _, h2, h => by
    cases p2 with
    | nil => simpa using h
    | cons b p2 =>
      simp only [List.nil_append, List.cons_append, List.cons.injEq] at h
      exact absurd (h.1 ▸ List.mem_cons_self b p2) h2
  | a :: p1, p2, c1, c2, h1, h2, h => by
    cases p2 with
    | nil =>
      simp only [List.cons_append, List.nil_append, List.cons.injEq] at h
      exact absurd (h.1 ▸ List.mem_cons_self a p1) h1
    | cons b p2 =>
      simp only [List.cons_append, List.cons.injEq] at h
      have := append_delim_inj (fun hm => h1 (List.mem_cons_of_mem a hm))
        (fun hm => h2 (List.mem_cons_of_mem b hm)) h.2
      exact ⟨by rw [h.1, this.1], this.2⟩

/-- C4: `file_checksum` is a pure function of the resolved path and the file
bytes — the chunked read feeds the hash exactly `path ++ 0x00 ++ content`, so
recomputing on unchanged data gives bit-for-bit the same digest — and for two
files with identical bytes at different resolved paths (paths free of the
delimiter byte, as UTF-8 path encodings are) the hash inputs differ, hence
for a collision-free digest the checksums differ. -/
theorem claim_C4_checksum_content_addressing {α : Type} (H : List ℕ → α) :
    (∀ path content : List ℕ,
      file_checksum H path content true = H (path ++ 0 :: content)) ∧
    (∀ p1 p2 content : List ℕ, 0 ∉ p1 → 0 ∉ p2 → p1 ≠ p2 →
      p1 ++ 0 :: content ≠ p2 ++ 0 :: content) ∧
    (Function.Injective H →
      ∀ p1 p2 content : List ℕ, 0 ∉ p1 → 0 ∉ p2 → p1 ≠ p2 →
        file_checksum H p1 content true ≠ file_checksum H p2 content true) := by
  have hpure : ∀ path content : List ℕ,
      file_checksum H path content true = H (path ++ 0 :: content) := by
    intro path content
    simp [file_checksum, chunked_flatten]
  refine ⟨hpure, ?_, ?_⟩
  · intro p1 p2 content h1 h2 hne h
    exact hne (append_delim_inj h1 h2 h).1
  · intro hinj p1 p2 content h1 h2 hne h
    rw [hpure, hpure] at h
    exact hne (append_delim_inj h1 h2 (hinj h)).1

/-- Witness for C4 with the identity digest (injective) and two one-byte
paths. -/
theorem claim_C4_checksum_content_addressing_witness :
    file_checksum (id : List ℕ → List ℕ) [1] [7] true
      ≠ file_checksum (id : List ℕ → List ℕ) [2] [7] true :=
  (claim_C4_checksum_content_addressing id).2.2 (fun _ _ h => h)
    [1] [2] [7] (by decide) (by decide) (by decide)

/-! ## Claim theorems: the payload parser -/

/-- Counterexample for C7: on a newline-delimited payload stored with
`data_format = 'json'` the code performs no fallback — the whole-text parse
fails and the result is `[]` — whereas the claimed attempt-then-fallback
parser (`parseJsonPayloadSpec`, worded from the spec) recovers both records.
The two records are also exactly what the code itself returns when the same
payload is marked `'jsonl'`, so the divergence is in the dispatch, not the
line parser. -/
theorem claim_C7_payload_parser_counterexample :
    parse_json_payload "\x7b\"a\": 1\x7d\n\x7b\"a\": 2\x7d" "json" = [] ∧
    parseJsonPayloadSpec "\x7b\"a\": 1\x7d\n\x7b\"a\": 2\x7d"
      = [Json.obj [("a", Json.num (mkRat 1 1))], Json.obj [("a", Json.num (mkRat 2 1))]] ∧
    parse_json_payload "\x7b\"a\": 1\x7d\n\x7b\"a\": 2\x7d" "jsonl"
      = [Json.obj [("a", Json.num (mkRat 1 1))], Json.obj [("a", Json.num (mkRat 2 1))]] ∧
    parse_json_payload "\x7b\"a\": 1\x7d\n\x7b\"a\": 2\x7d" "json"
      ≠ parseJsonPayloadSpec "\x7b\"a\": 1\x7d\n\x7b\"a\": 2\x7d" := by
  refine ⟨rfl, rfl, rfl, ?_⟩
  intro h
  rw [show parse_json_payload "\x7b\"a\": 1\x7d\n\x7b\"a\": 2\x7d" "json" = [] from rfl,
      show parseJsonPayloadSpec "\x7b\"a\": 1\x7d\n\x7b\"a\": 2\x7d"
        = [Json.obj [("a", Json.num (mkRat 1 1))], Json.obj [("a", Json.num (mkRat 2 1))]] from rfl]
    at h
  exact List.noConfusion h

/-- C7 as amended: the payload parser accepts a JSON array of objects
(returned as-is), a single JSON object (wrapped into a one-element list), or
newline-delimited JSON objects, but the shape is selected by the stored
`data_format` field — `'jsonl'` parses line by line with malformed lines
skipped, anything else parses the whole text — and an empty, undecodable, or
all-malformed payload yields an empty list rather than an error. -/
theorem claim_C7_payload_parser_amended :
    (∀ payload fmt : String, fmt = "jsonl" →
      parse_json_payload payload fmt
        = (pySplitNewline (pyStrip payload)).filterMap fun line =>
            if pyStrip line = "" then Option.none else jsonLoads line) ∧
    (∀ payload fmt : String, fmt ≠ "jsonl" → ∀ xs,
      jsonLoads payload = Option.some (Json.arr xs) →
      parse_json_payload payload fmt = xs) ∧
    (∀ payload fmt : String, fmt ≠ "jsonl" → ∀ kvs,
      jsonLoads payload = Option.some (Json.obj kvs) →
      parse_json_payload payload fmt = [Json.obj kvs]) ∧
    (∀ payload fmt : String, fmt ≠ "jsonl" →
      jsonLoads payload = Option.none → parse_json_payload payload fmt = []) ∧
    parse_json_payload "[\x7b\"a\": 1\x7d, \x7b\"b\": 2\x7d]" "json"
      = [Json.obj [("a", Json.num (mkRat 1 1))], Json.obj [("b", Json.num (mkRat 2 1))]] ∧
    parse_json_payload "\x7b\"a\": 1\x7d" "json" = [Json.obj [("a", Json.num (mkRat 1 1))]] ∧
    parse_json_payload "\x7b\"a\": 1\x7d\nnot json\n\x7b\"a\": 2\x7d" "jsonl"
      = [Json.obj [("a", Json.num (mkRat 1 1))], Json.obj [("a", Json.num (mkRat 2 1))]] ∧
    parse_json_payload "not json at all" "json" = [] ∧
    parse_json_payload "not\njson\nat all" "jsonl" = [] ∧
    parse_json_payload "" "json" = [] ∧
    parse_json_payload "" "jsonl" = [] := by
  refine ⟨?_, ?_, ?_, ?_, rfl, rfl, rfl, rfl, rfl, rfl, rfl⟩
  · intro payload fmt hf
    subst hf
    rfl
  · intro payload fmt hf xs hl
    simp [parse_json_payload, hf, hl]
  · intro payload fmt hf kvs hl
    simp [parse_json_payload, hf, hl]
  · intro payload fmt hf hl
    simp [parse_json_payload, hf, hl]

/-- Witness for C7's amended theorem: the quantified branch facts evaluated
at concrete payloads. -/
theorem claim_C7_payload_parser_amended_witness :
    parse_json_payload "[1]\n[2]" "jsonl"
      = [Json.arr [Json.num (mkRat 1 1)], Json.arr [Json.num (mkRat 2 1)]] ∧
    parse_json_payload "[true]" "json" = [Json.bool true] ∧
    parse_json_payload "\x7b\"k\": null\x7d" "json" = [Json.obj [("k", Json.null)]] ∧
    parse_json_payload "\x7balmost" "json" = [] := by
  refine ⟨?_, ?_, ?_, ?_⟩
  · rw [claim_C7_payload_parser_amended.1 "[1]\n[2]" "jsonl" rfl]
    rfl
  · exact claim_C7_payload_parser_amended.2.1 "[true]" "json"
      (by decide) [Json.bool true] rfl
  · exact claim_C7_payload_parser_amended.2.2.1 "\x7b\"k\": null\x7d" "json"
      (by decide) [("k", Json.null)] rfl
  · exact claim_C7_payload_parser_amended.2.2.2.1 "\x7balmost" "json" (by decide) rfl

/-! ## Helper lemmas: the version-descending sort -/

theorem insertDesc_perm (r : Row) (l : List Row) :
    (insertDesc r l).Perm (r :: l) := by
  induction l with
  | nil => simp [insertDesc]
  | cons x xs ih =>
    simp only [insertDesc]
    split
    · exact List.Perm.refl _
    · exact ((ih.cons x).trans (List.Perm.swap r x xs))

theorem sortByVersionDesc_perm (l : List Row) :
    (sortByVersionDesc l).Perm l := by
  induction l with
  | nil => exact List.Perm.refl _
  | cons x xs ih =>
    exact (insertDesc_perm x (sortByVersionDesc xs)).trans (ih.cons x)

theorem mem_sortByVersionDesc {r : Row} {l : List Row} :
    r ∈ sortByVersionDesc l ↔ r ∈ l :=
  (sortByVersionDesc_perm l).mem_iff

/-- Version of the head of a row list (0 when empty). -/
def headVersion (l : List Row) : ℕ :=
  (l.head?.map fun x => x.core.version).getD 0

theorem headVersion_insertDesc (r : Row) (l : List Row) :
    headVersion (insertDesc r l) = max r.core.version (headVersion l) := by
  cases l with
  | nil => simp [insertDesc, headVersion]
  | cons x xs =>
    simp only [insertDesc]
    split
    · rename_i h
      simp [headVersion]
      omega
    · rename_i h
      simp [headVersion] at *
      omega

theorem version_le_headVersion_sort {l : List Row} :
    ∀ x ∈ l, x.core.version ≤ headVersion (sortByVersionDesc l) := by
  induction l with
  | nil => simp
  | cons y ys ih =>
    intro x hx
    have hh : headVersion (sortByVersionDesc (y :: ys))
        = max y.core.version (headVersion (sortByVersionDesc ys)) :=
      headVersion_insertDesc y (sortByVersionDesc ys)
    rcases List.mem_cons.mp hx with rfl | hx
    · omega
    · have := ih x hx
      omega

/-- The head row of the version-descending sort carries a maximal version. -/
theorem sortByVersionDesc_head_max {l : List Row} {a : Row} {t : List Row}
    (h : sortByVersionDesc l = a :: t) :
    a ∈ l ∧ ∀ x ∈ l, x.core.version ≤ a.core.version := by
  constructor
  · exact mem_sortByVersionDesc.mp (h ▸ List.mem_cons_self a t)
  · intro x hx
    have := version_le_headVersion_sort x hx
    rwa [h] at this

/-! ## Claim theorems: natural-key normalization and row identity -/

/-- A well-formed market-arrival record used by the concrete versioner
scenarios, with the market name and modal price as parameters. -/
def exampleRecord (market : String) (modal : ℤ) : InputRecord :=
  { reportedDate := Option.some "2024-01-01",
    stateName := Option.some "Karnataka",
    districtName := Option.some "Bangalore",
    marketName := Option.some market,
    commodityName := Option.some "Wheat",
    group := Option.none, variety := Option.none, grade := Option.none,
    arrivals := Option.some (PyValue.int 10),
    minPrice := Option.some (PyValue.int 1900),
    maxPrice := Option.some (PyValue.int 2100),
    modalPrice := Option.some (PyValue.int modal) }

set_option maxRecDepth 4096 in
/-- Counterexample for C5: two records whose market names differ only in
case (`"Alpha"` vs `"alpha"`) and carry identical measurements.  Both
normalize to the same `market_name_norm`, but because the versioner's lookup
keys on the raw market name, the second record opens an independent
version-1 row (outcome `insertedNew`) instead of being grouped with — and
skipped against — the first. -/
theorem claim_C5_normalization_counterexample :
    normalize_place_name (Option.some "Alpha")
      = normalize_place_name (Option.some "alpha") ∧
    (process_record id id
        (process_record id id [] "f1" (exampleRecord "Alpha" 2000) 0 "run" 100).1
        "f2" (exampleRecord "alpha" 2000) 0 "run" 100).2
      = ROutcome.versioned VOutcome.insertedNew ∧
    (process_record id id
        (process_record id id [] "f1" (exampleRecord "Alpha" 2000) 0 "run" 100).1
        "f2" (exampleRecord "alpha" 2000) 0 "run" 100).1.map
        (fun r => (r.core.version, r.isLatest))
      = [(1, true), (1, true)] ∧
    (process_record id id
        (process_record id id [] "f1" (exampleRecord "Alpha" 2000) 0 "run" 100).1
        "f2" (exampleRecord "alpha" 2000) 0 "run" 100).1.map
        (fun r => r.core.marketNameNorm)
      = [Option.some "alpha", Option.some "alpha"] :=
  ⟨rfl, rfl, rfl, rfl⟩

set_option maxRecDepth 4096 in
/-- C5 as amended: the versioner computes `normalize_place_name` of the
market name and stores it as `market_name_norm` on the inserted row, but its
lookup of existing versions keys on the raw (stripped) market name together
with commodity, coalesced variety/grade and date — so records whose market
names differ as raw strings (even case-only differences with equal
normalizations) form distinct natural keys and each starts its own
version-1 row (their distinct keys give them distinct `row_id` digests, so
neither insert hits the primary key). -/
theorem claim_C5_normalization_amended :
    (∀ store market commodity variety grade date,
      ∀ r ∈ get_existing_row_versions store market commodity variety grade date,
        r.core.marketName = market) ∧
    (∀ (c1 c2 : RowCore) (now : ℕ),
      c1.marketName ≠ c2.marketName → ¬c1.rowId = c2.rowId →
      ((version_step ((version_step [] c1 now).1) c2 now).2 = VOutcome.insertedNew ∧
       ((version_step ((version_step [] c1 now).1) c2 now).1.map
          fun r => (r.core.version, r.isLatest)) = [(1, true), (1, true)])) ∧
    ((process_record id id [] "f1" (exampleRecord "  Alpha  Market " 2000) 0
        "run" 100).1.map fun r => (r.core.marketName, r.core.marketNameNorm))
      = [("Alpha  Market", Option.some "alpha_market")] := by
  refine ⟨?_, ?_, rfl⟩
  · intro store market commodity variety grade date r hr
    have : r ∈ store.filter fun r =>
        decide (rowKey r = (market, commodity, variety, grade, date)) :=
      mem_sortByVersionDesc.mp hr
    have := List.of_mem_filter this
    simp only [decide_eq_true_eq] at this
    exact congrArg (fun k => k.1) this
  · intro c1 c2 now hne hrid
    have h1 : version_step [] c1 now
        = ([{ core := { c1 with version := 1 }, isLatest := true,
              supersededBy := Option.none, supersededAt := Option.none,
              updatedAt := now }], VOutcome.insertedNew) := rfl
    rw [h1]
    have hfil : get_existing_row_versions
        [{ core := { c1 with version := 1 }, isLatest := true,
           supersededBy := Option.none, supersededAt := Option.none,
           updatedAt := now }]
        c2.marketName c2.commodityName (coalesce c2.variety)
        (coalesce c2.grade) c2.reportedDate = [] := by
      simp only [get_existing_row_versions, List.filter]
      rw [decide_eq_false]
      · rfl
      · simp only [rowKey]
        intro hk
        exact hne (congrArg (fun k => k.1) hk)
    simp [version_step, hfil, hrid]

/-- Witness for C5's amended theorem at concrete stores and cores. -/
theorem claim_C5_normalization_amended_witness :
    ∀ r ∈ get_existing_row_versions
        (process_record id id [] "f1" (exampleRecord "Alpha" 2000) 0 "run" 100).1
        "Alpha" "Wheat" "" "" "2024-01-01",
      r.core.marketName = "Alpha" :=
  claim_C5_normalization_amended.1 _ "Alpha" "Wheat" "" "" "2024-01-01"

/-- A pipe-joined string determines its pipe-free first component. -/
theorem pipe_head_inj {f1 f2 r1 r2 : String}
    (h1 : '|' ∉ f1.data) (h2 : '|' ∉ f2.data)
    (h : f1 ++ "|" ++ r1 = f2 ++ "|" ++ r2) : f1 = f2 := by
  have hd := congrArg String.data h
  simp only [String.data_append] at hd
  have : f1.data ++ '|' :: r1.data = f2.data ++ '|' :: r2.data := by
    simpa using hd
  have := (append_delim_inj h1 h2 this).1
  cases f1; cases f2
  exact congrArg String.mk this

set_option maxRecDepth 4096 in
/-- Counterexample for C6: a second version of the same natural key produced
from the same file does not receive a fresh `row_id` — `compute_row_id`
folds in only `(file_id, key fields, reported_date)`, so the superseding
insert carries the version-1 row's identical `row_id`, violates the
`row_id` primary key, and the record errors out.  The final store holds only
the version-1 row, already marked superseded, whose `superseded_by` pointer
— the row id computed for the attempted version 2 — equals its own `row_id`.
(`H = id` exhibits the hash input; equal inputs give equal digests for
every `H`.) -/
theorem claim_C6_row_id_counterexample :
    (process_record id id
        (process_record id id [] "f1" (exampleRecord "Alpha" 2000) 0 "run" 100).1
        "f1" (exampleRecord "Alpha" 2050) 1 "run" 100).2
      = ROutcome.versioned VOutcome.insertError ∧
    (process_record id id
        (process_record id id [] "f1" (exampleRecord "Alpha" 2000) 0 "run" 100).1
        "f1" (exampleRecord "Alpha" 2050) 1 "run" 100).1.map
        (fun r => (r.core.version, r.isLatest, r.core.rowId, r.supersededBy))
      = [(1, false, "f1|Alpha|Wheat|||2024-01-01",
          Option.some "f1|Alpha|Wheat|||2024-01-01")] :=
  ⟨rfl, rfl⟩

set_option maxRecDepth 4096 in
/-- C6 as amended: `row_id` is the deterministic digest of
`(file_id, market, commodity, variety, grade, reported_date)` and serves as
the physical primary key; it does not depend on the record's measurements or
version, so versions of one natural key parsed from files with distinct
(pipe-free) `file_id`s receive distinct `row_id`s under a collision-free
digest, while a second version arising from the same file computes the
identical `row_id` — its insert violates the primary key and the record
errors out, leaving the superseded predecessor without a successor. -/
theorem claim_C6_row_id_amended :
    (∀ (H : String → String) (f m c v g d : String),
      compute_row_id H f m c v g d
        = H (f ++ "|" ++ m ++ "|" ++ c ++ "|" ++ v ++ "|" ++ g ++ "|" ++ d)) ∧
    (∀ H : String → String, Function.Injective H →
      ∀ f1 f2 m c v g d : String, '|' ∉ f1.data → '|' ∉ f2.data → f1 ≠ f2 →
        compute_row_id H f1 m c v g d ≠ compute_row_id H f2 m c v g d) ∧
    ((process_record id id
        (process_record id id [] "f1" (exampleRecord "Alpha" 2000) 0 "run" 100).1
        "f2" (exampleRecord "Alpha" 2050) 0 "run" 100).1.map
        (fun r => (r.core.version, r.core.rowId))
      = [(1, "f1|Alpha|Wheat|||2024-01-01"), (2, "f2|Alpha|Wheat|||2024-01-01")]) ∧
    (process_record id id
        (process_record id id [] "f1" (exampleRecord "Alpha" 2000) 0 "run" 100).1
        "f1" (exampleRecord "Alpha" 2050) 1 "run" 100).2
      = ROutcome.versioned VOutcome.insertError := by
  refine ⟨fun H f m c v g d => rfl, ?_, rfl, rfl⟩
  intro H hinj f1 f2 m c v g d h1 h2 hne heq
  apply hne
  have hkey := hinj heq
  have hassoc : ∀ f : String, f ++ "|" ++ m ++ "|" ++ c ++ "|" ++ v ++ "|" ++ g ++ "|" ++ d
      = f ++ "|" ++ (m ++ "|" ++ c ++ "|" ++ v ++ "|" ++ g ++ "|" ++ d) := by
    intro f
    simp only [String.append_assoc]
  simp only [compute_row_id] at hkey
  rw [hassoc f1, hassoc f2] at hkey
  exact pipe_head_inj h1 h2 hkey

/-- Witness for C6's amended theorem: distinct one-character file ids with
the identity digest give distinct row ids. -/
theorem claim_C6_row_id_amended_witness :
    compute_row_id id "f" "m" "c" "" "" "2024-01-01"
      ≠ compute_row_id id "g" "m" "c" "" "" "2024-01-01" :=
  claim_C6_row_id_amended.2.1 id (fun _ _ h => h) "f" "g" "m" "c" "" "" "2024-01-01"
    (by decide) (by decide) (by decide)

/-! ## Claim theorems: version monotonicity (C2) -/

/-- When every stored row carries the probe core's natural key, the lookup
returns the whole store, version-sorted. -/
theorem get_existing_of_all_key (cc : RowCore) (rows : List Row)
    (h : ∀ r ∈ rows, rowKey r = coreKey cc) :
    get_existing_row_versions rows cc.marketName cc.commodityName
      (coalesce cc.variety) (coalesce cc.grade) cc.reportedDate
      = sortByVersionDesc rows := by
  unfold get_existing_row_versions
  congr 1
  apply List.filter_eq_self.mpr
  intro r hr
  simp [h r hr, coreKey]

/-- Abbreviation for the row the versioner inserts: the core at the given
version, `is_latest = true`, no supersession, audit time `now`. -/
def mkLatestRow (c : RowCore) (v : ℕ) (now : ℕ) : Row :=
  { core := { c with version := v }, isLatest := true,
    supersededBy := Option.none, supersededAt := Option.none, updatedAt := now }

/-- Abbreviation for a row after `update_superseded_sql` hit it:
`is_latest = false`, `superseded_by`/`superseded_at`/`updated_at` set. -/
def mkSupersededRow (c : RowCore) (v : ℕ) (sby : String) (sat : ℕ) : Row :=
  { core := { c with version := v }, isLatest := false,
    supersededBy := Option.some sby, supersededAt := Option.some sat,
    updatedAt := sat }

/-- The PRIMARY KEY probe is false when no stored row carries the new
row id. -/
theorem any_rowId_eq_false {store : List Row} {rid : String}
    (h : ∀ r ∈ store, ¬r.core.rowId = rid) :
    (store.any fun r => r.core.rowId == rid) = false := by
  rw [List.any_eq_false]
  intro r hr
  simp [h r hr]

/-- Dispatch lemma: empty lookup and a fresh row id insert version 1 as
latest. -/
theorem version_step_insert (store : List Row) (core : RowCore) (now : ℕ)
    (hex : get_existing_row_versions store core.marketName core.commodityName
      (coalesce core.variety) (coalesce core.grade) core.reportedDate = [])
    (hfresh : ∀ r ∈ store, ¬r.core.rowId = core.rowId) :
    version_step store core now
      = (store ++ [mkLatestRow core 1 now], VOutcome.insertedNew) := by
  simp only [version_step, hex, any_rowId_eq_false hfresh, mkLatestRow]
  rfl

/-- Dispatch lemma: empty lookup but a stored row already holding the new
row id makes the version-1 `INSERT` violate the primary key; the store is
unchanged. -/
theorem version_step_insert_conflict (store : List Row) (core : RowCore)
    (now : ℕ)
    (hex : get_existing_row_versions store core.marketName core.commodityName
      (coalesce core.variety) (coalesce core.grade) core.reportedDate = [])
    (hdup : (store.any fun r => r.core.rowId == core.rowId) = true) :
    version_step store core now = (store, VOutcome.insertError) := by
  simp only [version_step, hex, hdup]
  rfl

/-- Dispatch lemma: unchanged hash against the current latest row skips. -/
theorem version_step_skip (store : List Row) (core : RowCore) (now : ℕ)
    (latest : Row) (rest : List Row)
    (hex : get_existing_row_versions store core.marketName core.commodityName
      (coalesce core.variety) (coalesce core.grade) core.reportedDate
      = latest :: rest)
    (hh : latest.core.recordHash = core.recordHash) :
    version_step store core now = (store, VOutcome.skippedUnchanged) := by
  simp only [version_step, hex]
  exact if_pos hh

/-- The supersession update never changes a row's core, hence never its
row id. -/
theorem any_rowId_map_upd_eq_false {store : List Row} {rid tid sby : String}
    {now : ℕ} (h : ∀ r ∈ store, ¬r.core.rowId = rid) :
    ((store.map fun r =>
        if r.core.rowId = tid then
          { r with isLatest := false, supersededBy := Option.some sby,
                   supersededAt := Option.some now, updatedAt := now }
        else r).any fun r => r.core.rowId == rid) = false := by
  rw [List.any_eq_false]
  intro r hr
  rcases List.mem_map.mp hr with ⟨x, hx, rfl⟩
  have hcore : ((if x.core.rowId = tid then
      { x with isLatest := false, supersededBy := Option.some sby,
               supersededAt := Option.some now, updatedAt := now }
    else x) : Row).core = x.core := by
    split <;> rfl
  rw [hcore]
  simp [h x hx]

/-- Dispatch lemma: changed hash and a fresh row id supersede the latest row
and insert the next version. -/
theorem version_step_supersede (store : List Row) (core : RowCore) (now : ℕ)
    (latest : Row) (rest : List Row)
    (hex : get_existing_row_versions store core.marketName core.commodityName
      (coalesce core.variety) (coalesce core.grade) core.reportedDate
      = latest :: rest)
    (hh : ¬latest.core.recordHash = core.recordHash)
    (hfresh : ∀ r ∈ store, ¬r.core.rowId = core.rowId) :
    version_step store core now
      = (store.map (fun r =>
          if r.core.rowId = latest.core.rowId then
            { r with isLatest := false, supersededBy := Option.some core.rowId,
                     supersededAt := Option.some now, updatedAt := now }
          else r)
         ++ [mkLatestRow core (latest.core.version + 1) now],
         VOutcome.supersededInserted) := by
  simp only [version_step, hex, mkLatestRow]
  rw [if_neg hh]
  simp only [any_rowId_map_upd_eq_false hfresh]
  rfl

/-- Dispatch lemma: changed hash but a stored row already holding the new
row id — the `UPDATE` marking the latest row superseded has executed, then
the `INSERT` violates the primary key; the failure state keeps the update
and gains no row. -/
theorem version_step_supersede_conflict (store : List Row) (core : RowCore)
    (now : ℕ) (latest : Row) (rest : List Row)
    (hex : get_existing_row_versions store core.marketName core.commodityName
      (coalesce core.variety) (coalesce core.grade) core.reportedDate
      = latest :: rest)
    (hh : ¬latest.core.recordHash = core.recordHash)
    (hdup : ∃ r ∈ store, r.core.rowId = core.rowId) :
    version_step store core now
      = (store.map (fun r =>
          if r.core.rowId = latest.core.rowId then
            { r with isLatest := false, supersededBy := Option.some core.rowId,
                     supersededAt := Option.some now, updatedAt := now }
          else r),
         VOutcome.insertError) := by
  simp only [version_step, hex]
  rw [if_neg hh]
  have hany : ((store.map fun r =>
      if r.core.rowId = latest.core.rowId then
        { r with isLatest := false, supersededBy := Option.some core.rowId,
                 supersededAt := Option.some now, updatedAt := now }
      else r).any fun r => r.core.rowId == core.rowId) = true := by
    rcases hdup with ⟨x, hx, hxid⟩
    rw [List.any_eq_true]
    refine ⟨_, List.mem_map.mpr ⟨x, hx, rfl⟩, ?_⟩
    have hcore : ((if x.core.rowId = latest.core.rowId then
        { x with isLatest := false, supersededBy := Option.some core.rowId,
                 supersededAt := Option.some now, updatedAt := now }
      else x) : Row).core = x.core := by
      split <;> rfl
    rw [hcore]
    simp [hxid]
  simp only [hany]
  rfl

/-- C2 as amended: for a fixed natural key, applying the versioner to
observations with record hashes `H1`, `H2` (≠ `H1`), `H2` again, and `H3`
(≠ `H2`), in that order, yields versions 1, 2, (skip), 3 — provided each
inserted observation carries a row id distinct from the already stored ones
(as holds when the observations come from files with distinct file ids,
since `row_id` digests the file id): the repeated `H2` leaves the store
unchanged with outcome "skipped"; the version-1 and version-2 rows end
`is_latest = false` with `superseded_by` pointing at the row that replaced
them; and exactly one row holds `is_latest = true` at the end. -/
theorem claim_C2_version_monotonicity_amended
    (c1 c2 c3 c4 : RowCore) (n1 n2 n3 n4 : ℕ)
    (hk2 : coreKey c1 = coreKey c2)
    (hk3 : coreKey c1 = coreKey c3)
    (hk4 : coreKey c1 = coreKey c4)
    (hh12 : ¬c1.recordHash = c2.recordHash)
    (hh32 : c2.recordHash = c3.recordHash)
    (hh42 : ¬c2.recordHash = c4.recordHash)
    (hr12 : ¬c1.rowId = c2.rowId)
    (hr14 : ¬c1.rowId = c4.rowId)
    (hr24 : ¬c2.rowId = c4.rowId) :
    (version_step [] c1 n1).2 = VOutcome.insertedNew ∧
    (version_step (version_step [] c1 n1).1 c2 n2).2
      = VOutcome.supersededInserted ∧
    version_step (version_step (version_step [] c1 n1).1 c2 n2).1 c3 n3
      = ((version_step (version_step [] c1 n1).1 c2 n2).1,
         VOutcome.skippedUnchanged) ∧
    version_step (version_step (version_step (version_step [] c1 n1).1 c2
        n2).1 c3 n3).1 c4 n4
      = ([mkSupersededRow c1 1 c2.rowId n2,
          mkSupersededRow c2 2 c4.rowId n4,
          mkLatestRow c4 3 n4], VOutcome.supersededInserted) ∧
    ((version_step (version_step (version_step (version_step [] c1 n1).1 c2
        n2).1 c3 n3).1 c4 n4).1.filter fun r => r.isLatest).length = 1 := by
  have e1 : version_step [] c1 n1
      = ([mkLatestRow c1 1 n1], VOutcome.insertedNew) := by
    rw [version_step_insert [] c1 n1 rfl (by intro r hr; cases hr)]
    rfl
  have hm2 : ∀ r ∈ [mkLatestRow c1 1 n1], rowKey r = coreKey c2 := by
    intro r hr
    rw [List.mem_singleton.mp hr]
    exact hk2
  have e2 : version_step [mkLatestRow c1 1 n1] c2 n2
      = ([mkSupersededRow c1 1 c2.rowId n2, mkLatestRow c2 2 n2],
         VOutcome.supersededInserted) := by
    rw [version_step_supersede _ c2 n2 (mkLatestRow c1 1 n1) []
      ((get_existing_of_all_key c2 _ hm2).trans rfl) hh12
      (by intro r hr; rw [List.mem_singleton.mp hr]; exact hr12)]
    simp [mkLatestRow, mkSupersededRow]
  have hm3 : ∀ r ∈ [mkSupersededRow c1 1 c2.rowId n2, mkLatestRow c2 2 n2],
      rowKey r = coreKey c3 := by
    intro r hr
    rcases List.mem_cons.mp hr with rfl | hr
    · exact hk3
    · rw [List.mem_singleton.mp hr]
      exact hk2.symm.trans hk3
  have e3 : version_step [mkSupersededRow c1 1 c2.rowId n2, mkLatestRow c2 2 n2]
      c3 n3
      = ([mkSupersededRow c1 1 c2.rowId n2, mkLatestRow c2 2 n2],
         VOutcome.skippedUnchanged) :=
    version_step_skip _ c3 n3 (mkLatestRow c2 2 n2)
      [mkSupersededRow c1 1 c2.rowId n2]
      ((get_existing_of_all_key c3 _ hm3).trans rfl) hh32
  have hm4 : ∀ r ∈ [mkSupersededRow c1 1 c2.rowId n2, mkLatestRow c2 2 n2],
      rowKey r = coreKey c4 := by
    intro r hr
    rcases List.mem_cons.mp hr with rfl | hr
    · exact hk4
    · rw [List.mem_singleton.mp hr]
      exact hk2.symm.trans hk4
  have e4 : version_step [mkSupersededRow c1 1 c2.rowId n2, mkLatestRow c2 2 n2]
      c4 n4
      = ([mkSupersededRow c1 1 c2.rowId n2,
          mkSupersededRow c2 2 c4.rowId n4,
          mkLatestRow c4 3 n4], VOutcome.supersededInserted) := by
    rw [version_step_supersede _ c4 n4 (mkLatestRow c2 2 n2)
      [mkSupersededRow c1 1 c2.rowId n2]
      ((get_existing_of_all_key c4 _ hm4).trans rfl) hh42
      (by intro r hr
          rcases List.mem_cons.mp hr with rfl | hr
          · exact hr14
          · rw [List.mem_singleton.mp hr]; exact hr24)]
    simp [mkLatestRow, mkSupersededRow, hr12]
  refine ⟨by simp only [e1], by simp only [e1, e2], by simp only [e1, e2, e3],
    by simp only [e1, e2, e3, e4], ?_⟩
  simp only [e1, e2, e3, e4]
  rfl

/-- A concrete core for the C2 witness: the natural key
`(Alpha, Wheat, '', '', 2024-01-01)` with the given row id and record
hash. -/
def witnessCore (rid hash : String) : RowCore :=
  { rowId := rid, fileId := "f1", country := "IN",
    stateName := Option.none, districtName := Option.none,
    marketName := "Alpha", marketNameNorm := Option.some "alpha",
    commodityName := "Wheat", commodityGroup := Option.none,
    variety := Option.none, grade := Option.none,
    reportedDate := "2024-01-01", year := 2024, month := 1, day := 1,
    arrivals := Option.none, minPrice := Option.none,
    maxPrice := Option.none, modalPrice := Option.none,
    hasNulls := false, isComplete := true, nullFieldCount := 0,
    recordHash := hash, version := 1, ingestJobId := "run",
    ingestTs := 1, sourceRowNumber := 1, createdAt := 1 }

set_option maxHeartbeats 1000000 in
/-- Counterexample for C2: the same `H1, H2, H2, H3` hash sequence on one
natural key, but with the `H3` observation re-parsed from the same file as
the `H1` one, so `compute_row_id` gives it the stored version-1 row id
(row ids digest only file id, natural key and date).  The versioner's
`UPDATE` marks version 2 superseded, then the version-3 `INSERT` violates
the `row_id` primary key and the record errors out: no version 3 exists and
no row is left `is_latest` — not the claimed 1, 2, 3 chain with exactly one
latest row. -/
theorem claim_C2_version_monotonicity_counterexample :
    version_step (version_step (version_step (version_step []
        (witnessCore "r1" "h1") 1).1 (witnessCore "r2" "h2") 2).1
        (witnessCore "r3" "h2") 3).1 (witnessCore "r1" "h3") 4
      = ([mkSupersededRow (witnessCore "r1" "h1") 1 "r2" 2,
          mkSupersededRow (witnessCore "r2" "h2") 2 "r1" 4],
         VOutcome.insertError) ∧
    ((version_step (version_step (version_step (version_step []
        (witnessCore "r1" "h1") 1).1 (witnessCore "r2" "h2") 2).1
        (witnessCore "r3" "h2") 3).1 (witnessCore "r1" "h3") 4).1.filter
      fun r => r.isLatest) = [] := by
  exact ⟨rfl, rfl⟩

set_option maxHeartbeats 1000000 in
/-- Witness for C2's amended theorem at concrete cores with hashes
`h1, h2, h2, h3` and row ids `r1, r2, r3, r4`. -/
theorem claim_C2_version_monotonicity_amended_witness :
    version_step (version_step (version_step (version_step []
        (witnessCore "r1" "h1") 1).1 (witnessCore "r2" "h2") 2).1
        (witnessCore "r3" "h2") 3).1 (witnessCore "r4" "h3") 4
      = ([mkSupersededRow (witnessCore "r1" "h1") 1 "r2" 2,
          mkSupersededRow (witnessCore "r2" "h2") 2 "r4" 4,
          mkLatestRow (witnessCore "r4" "h3") 3 4],
         VOutcome.supersededInserted) :=
  (claim_C2_version_monotonicity_amended (witnessCore "r1" "h1")
    (witnessCore "r2" "h2") (witnessCore "r3" "h2") (witnessCore "r4" "h3")
    1 2 3 4 rfl rfl rfl (by decide) rfl (by decide) (by decide) (by decide)
    (by decide)).2.2.2.1

/-! ## Claim theorems: the ingestion scan (C1, C9) -/

/-- Checksums of the scanned data files whose metadata step succeeds, in scan
order (one entry per file, duplicates included). -/
def okChecksums (files : List ScanFile) : List String :=
  files.filterMap fun f =>
    if isDataFile f.fname then
      match f.result with
      | Except.ok m => Option.some m.checksum
      | Except.error _ => Option.none
    else Option.none

/-- The manifest error entry a file produces, if any: data files whose
processing raises are recorded as `(path, error_type)`. -/
def errEntry (f : ScanFile) : Option (String × String) :=
  if isDataFile f.fname then
    match f.result with
    | Except.error e => Option.some (f.path, e)
    | Except.ok _ => Option.none
  else Option.none

theorem runIngest_cons (f : ScanFile) (fs : List ScanFile) (s : IngestState) :
    runIngest (f :: fs) s = runIngest fs (ingestStep s f) := by
  simp only [runIngest, List.foldl_cons]

/-- Core characterization of one scan: the run appends a block `new` of
freshly inserted bronze-file records; their checksums are pairwise distinct
and are exactly the successfully scanned checksums not present in the
`existing_checksums` set loaded at run start; the in-memory set ends as the
old set plus the inserted checksums, and `files_ingested` counts exactly the
inserts. -/
theorem runIngest_inserts (files : List ScanFile) :
    ∀ s : IngestState, ∃ new : List FileMeta,
      (runIngest files s).store = s.store ++ new ∧
      (runIngest files s).existing
        = s.existing ++ new.map (fun m => m.checksum) ∧
      (new.map fun m => m.checksum).Nodup ∧
      (∀ c, c ∈ new.map (fun m => m.checksum)
        ↔ c ∉ s.existing ∧ c ∈ okChecksums files) ∧
      (runIngest files s).ingested = s.ingested + new.length := by
  induction files with
  | nil =>
    intro s
    exact ⟨[], by simp [runIngest, okChecksums]⟩
  | cons f fs ih =>
    intro s
    rw [runIngest_cons]
    by_cases hdata : isDataFile f.fname
    · rcases hres : f.result with e | m
      · -- metadata step raised: only errors/errored/scanned change
        have hstep : ingestStep s f
            = { s with
                scanned := s.scanned + 1
                errors := s.errors ++ [(f.path, e)]
                errored := s.errored + 1 } := by
          simp [ingestStep, hdata, hres]
        obtain ⟨new, h1, h2, h3, h4, h5⟩ := ih ({ s with
          scanned := s.scanned + 1
          errors := s.errors ++ [(f.path, e)]
          errored := s.errored + 1 })
        refine ⟨new, ?_⟩
        rw [hstep]
        refine ⟨h1, h2, h3, ?_, h5⟩
        intro c
        rw [h4 c]
        simp [okChecksums, hdata, hres]
      · by_cases hdup : m.checksum ∈ s.existing
        · -- checksum already known: skip, nothing else changes
          have hstep : ingestStep s f
              = { s with
                  scanned := s.scanned + 1
                  skippedFiles := s.skippedFiles
                    ++ [(f.path, m.checksum, "already_ingested")]
                  skipped := s.skipped + 1 } := by
            simp [ingestStep, hdata, hres, hdup]
          obtain ⟨new, h1, h2, h3, h4, h5⟩ := ih ({ s with
            scanned := s.scanned + 1
            skippedFiles := s.skippedFiles
              ++ [(f.path, m.checksum, "already_ingested")]
            skipped := s.skipped + 1 })
          refine ⟨new, ?_⟩
          rw [hstep]
          refine ⟨h1, h2, h3, ?_, h5⟩
          intro c
          rw [h4 c]
          simp only [okChecksums, List.filterMap_cons, hdata, if_pos, hres]
          constructor
          · rintro ⟨hni, hin⟩
            exact ⟨hni, List.mem_cons_of_mem _ hin⟩
          · rintro ⟨hni, hin⟩
            rcases List.mem_cons.mp hin with rfl | hin
            · exact absurd hdup hni
            · exact ⟨hni, hin⟩
        · -- new checksum: insert
          have hstep : ingestStep s f
              = { s with
                  scanned := s.scanned + 1
                  store := s.store ++ [m]
                  existing := s.existing ++ [m.checksum]
                  ingestedFiles := s.ingestedFiles ++ [(f.path, m.fileId)]
                  ingested := s.ingested + 1
                  rowsIngested := s.rowsIngested + m.rowCount } := by
            simp [ingestStep, hdata, hres, hdup]
          obtain ⟨new, h1, h2, h3, h4, h5⟩ := ih ({ s with
            scanned := s.scanned + 1
            store := s.store ++ [m]
            existing := s.existing ++ [m.checksum]
            ingestedFiles := s.ingestedFiles ++ [(f.path, m.fileId)]
            ingested := s.ingested + 1
            rowsIngested := s.rowsIngested + m.rowCount })
          refine ⟨m :: new, ?_⟩
          rw [hstep]
          refine ⟨by rw [h1]; simp, by rw [h2]; simp, ?_, ?_, by rw [h5]; simp; omega⟩
          · refine List.Nodup.cons ?_ h3
            intro hmem
            have := (h4 m.checksum).mp hmem
            simp at this
          · intro c
            simp only [List.map_cons, List.mem_cons]
            rw [h4 c]
            simp only [okChecksums, List.filterMap_cons, hdata, if_pos, hres]
            constructor
            · rintro (rfl | ⟨hni, hin⟩)
              · exact ⟨hdup, List.mem_cons_self _ _⟩
              · simp only [List.mem_append, List.mem_singleton] at hni
                push_neg at hni
                exact ⟨hni.1, List.mem_cons_of_mem _ hin⟩
            · rintro ⟨hni, hin⟩
              rcases List.mem_cons.mp hin with rfl | hin
              · exact Or.inl rfl
              · by_cases hc : c = m.checksum
                · exact Or.inl hc
                · refine Or.inr ⟨?_, hin⟩
                  simp [hni, hc]
    · -- not a data file: nothing changes at all
      have hstep : ingestStep s f = s := by
        simp [ingestStep, hdata]
      obtain ⟨new, h1, h2, h3, h4, h5⟩ := ih s
      refine ⟨new, ?_⟩
      rw [hstep]
      refine ⟨h1, h2, h3, ?_, h5⟩
      intro c
      rw [h4 c]
      simp [okChecksums, hdata]

/-- When every successfully scanned checksum is already in the in-memory set,
the run inserts nothing: the store and set are unchanged, `files_ingested`
stays put, and `files_skipped` grows by the number of successfully scanned
data files. -/
theorem runIngest_all_existing (files : List ScanFile) :
    ∀ s : IngestState,
    (∀ f ∈ files, ∀ m : FileMeta, isDataFile f.fname →
      f.result = Except.ok m → m.checksum ∈ s.existing) →
    (runIngest files s).store = s.store ∧
    (runIngest files s).existing = s.existing ∧
    (runIngest files s).ingested = s.ingested ∧
    (runIngest files s).skipped = s.skipped + (okChecksums files).length := by
  induction files with
  | nil =>
    intro s _
    exact ⟨rfl, rfl, rfl, by simp [runIngest, okChecksums]⟩
  | cons f fs ih =>
    intro s h
    rw [runIngest_cons]
    by_cases hdata : isDataFile f.fname
    · rcases hres : f.result with e | m
      · have hstep : ingestStep s f
            = { s with
                scanned := s.scanned + 1
                errors := s.errors ++ [(f.path, e)]
                errored := s.errored + 1 } := by
          simp [ingestStep, hdata, hres]
        rw [hstep]
        obtain ⟨g1, g2, g3, g4⟩ := ih ({ s with
            scanned := s.scanned + 1
            errors := s.errors ++ [(f.path, e)]
            errored := s.errored + 1 })
          (fun f' hf' m hd hr => h f' (List.mem_cons_of_mem f hf') m hd hr)
        refine ⟨g1, g2, g3, ?_⟩
        rw [g4]
        simp [okChecksums, hdata, hres]
      · have hdup : m.checksum ∈ s.existing := h f (List.mem_cons_self f fs) m hdata hres
        have hstep : ingestStep s f
            = { s with
                scanned := s.scanned + 1
                skippedFiles := s.skippedFiles
                  ++ [(f.path, m.checksum, "already_ingested")]
                skipped := s.skipped + 1 } := by
          simp [ingestStep, hdata, hres, hdup]
        rw [hstep]
        obtain ⟨g1, g2, g3, g4⟩ := ih ({ s with
            scanned := s.scanned + 1
            skippedFiles := s.skippedFiles
              ++ [(f.path, m.checksum, "already_ingested")]
            skipped := s.skipped + 1 })
          (fun f' hf' m hd hr => h f' (List.mem_cons_of_mem f hf') m hd hr)
        refine ⟨g1, g2, g3, ?_⟩
        rw [g4]
        simp only [okChecksums, List.filterMap_cons, hdata, if_pos, hres]
        simp [List.length_cons]
        omega
    · have hstep : ingestStep s f = s := by simp [ingestStep, hdata]
      rw [hstep]
      obtain ⟨g1, g2, g3, g4⟩ := ih s (fun f' hf' m hd hr =>
        h f' (List.mem_cons_of_mem f hf') m hd hr)
      refine ⟨g1, g2, g3, ?_⟩
      rw [g4]
      simp [okChecksums, hdata]

/-- C1: ingestion is idempotent on unchanged files.  Within a single run the
inserted bronze-file records have pairwise distinct checksums — exactly the
successfully scanned checksums not in the store at run start — so there is
exactly one insert per newly seen checksum and zero for checksums already
present or already inserted earlier in the run, and `files_ingested` counts
the inserts.  Consequently a second run over the same (unchanged,
all-readable, duplicate-free) file list performs zero inserts, reports
`files_ingested = 0`, and reports `files_skipped` equal to the first run's
`files_ingested`. -/
theorem claim_C1_ingest_idempotent :
    (∀ (files : List ScanFile) (s : IngestState),
      ∃ new : List FileMeta,
        (runIngest files s).store = s.store ++ new ∧
        (new.map fun m => m.checksum).Nodup ∧
        (∀ c, c ∈ new.map (fun m => m.checksum)
          ↔ c ∉ s.existing ∧ c ∈ okChecksums files) ∧
        (runIngest files s).ingested = s.ingested + new.length) ∧
    (∀ files : List ScanFile,
      (∀ f ∈ files, isDataFile f.fname → ∃ m, f.result = Except.ok m) →
      (okChecksums files).Nodup →
      (runIngest files (freshState (runIngest files (freshState [])).store)).store
        = (runIngest files (freshState [])).store ∧
      (runIngest files (freshState (runIngest files (freshState [])).store)).ingested
        = 0 ∧
      (runIngest files (freshState (runIngest files (freshState [])).store)).skipped
        = (runIngest files (freshState [])).ingested) := by
  constructor
  · intro files s
    obtain ⟨new, h1, _, h3, h4, h5⟩ := runIngest_inserts files s
    exact ⟨new, h1, h3, h4, h5⟩
  · intro files hok hnodup
    obtain ⟨new, h1, h2, h3, h4, h5⟩ := runIngest_inserts files (freshState [])
    have hstore1 : (runIngest files (freshState [])).store = new := by
      rw [h1]
      rfl
    have hmemok : ∀ c, c ∈ new.map (fun m => m.checksum) ↔ c ∈ okChecksums files := by
      intro c
      rw [h4 c]
      simp [freshState]
    have hex1 : (freshState (runIngest files (freshState [])).store).existing
        = new.map (fun m => m.checksum) := by
      rw [hstore1]
      rfl
    have hall : ∀ f ∈ files, ∀ m : FileMeta, isDataFile f.fname →
        f.result = Except.ok m →
        m.checksum ∈ (freshState (runIngest files (freshState [])).store).existing := by
      intro f hf m hd hr
      rw [hex1, hmemok]
      exact List.mem_filterMap.mpr ⟨f, hf, by simp [hd, hr]⟩
    obtain ⟨g1, g2, g3, g4⟩ := runIngest_all_existing files _ hall
    have hlen : new.length = (okChecksums files).length := by
      have hperm : (new.map fun m => m.checksum).Perm (okChecksums files) :=
        (List.perm_ext_iff_of_nodup h3 hnodup).mpr hmemok
      have := hperm.length_eq
      simpa using this
    refine ⟨by rw [g1]; rfl, by rw [g3]; rfl, ?_⟩
    rw [g4, h5]
    simp [freshState, hlen]

/-- A concrete bronze-file metadata record for the C1 witness. -/
def witnessMeta (c : String) : FileMeta :=
  { fileId := c, checksum := c, originalFilename := "a.json",
    filePath := "/data/a.json", fileSizeBytes := 10, year := 2024, month := 1,
    rawPayload := "[]", rowCount := 1, dataFormat := "json",
    partitionPath := "year=2024/month=01", ingestDurationMs := 1 }

/-- Witness for C1: a two-file directory, ingested twice from an empty
store — the second run ingests nothing and skips what the first run
ingested. -/
theorem claim_C1_ingest_idempotent_witness :
    (runIngest
        [⟨"/data/a.json", "a.json", Except.ok (witnessMeta "ca")⟩,
         ⟨"/data/b.json", "b.json", Except.ok (witnessMeta "cb")⟩]
        (freshState (runIngest
          [⟨"/data/a.json", "a.json", Except.ok (witnessMeta "ca")⟩,
           ⟨"/data/b.json", "b.json", Except.ok (witnessMeta "cb")⟩]
          (freshState [])).store)).ingested = 0 ∧
    (runIngest
        [⟨"/data/a.json", "a.json", Except.ok (witnessMeta "ca")⟩,
         ⟨"/data/b.json", "b.json", Except.ok (witnessMeta "cb")⟩]
        (freshState (runIngest
          [⟨"/data/a.json", "a.json", Except.ok (witnessMeta "ca")⟩,
           ⟨"/data/b.json", "b.json", Except.ok (witnessMeta "cb")⟩]
          (freshState [])).store)).skipped
      = (runIngest
          [⟨"/data/a.json", "a.json", Except.ok (witnessMeta "ca")⟩,
           ⟨"/data/b.json", "b.json", Except.ok (witnessMeta "cb")⟩]
          (freshState [])).ingested := by
  have h := claim_C1_ingest_idempotent.2
    [⟨"/data/a.json", "a.json", Except.ok (witnessMeta "ca")⟩,
     ⟨"/data/b.json", "b.json", Except.ok (witnessMeta "cb")⟩]
    (by
      intro f hf hd
      rcases List.mem_cons.mp hf with rfl | hf
      · exact ⟨witnessMeta "ca", rfl⟩
      · rw [List.mem_singleton.mp hf]
        exact ⟨witnessMeta "cb", rfl⟩)
    (by
      rw [show okChecksums
        [⟨"/data/a.json", "a.json", Except.ok (witnessMeta "ca")⟩,
         ⟨"/data/b.json", "b.json", Except.ok (witnessMeta "cb")⟩]
        = ["ca", "cb"] from rfl]
      simp)
  exact ⟨h.2.1, h.2.2⟩

/-- The scan's store, checksum set, and ingest/skip counters do not depend on
the manifest's scanned/error fields of the starting state. -/
theorem runIngest_frame (files : List ScanFile) :
    ∀ s t : IngestState, s.store = t.store → s.existing = t.existing →
      s.ingested = t.ingested → s.skipped = t.skipped →
      (runIngest files s).store = (runIngest files t).store ∧
      (runIngest files s).existing = (runIngest files t).existing ∧
      (runIngest files s).ingested = (runIngest files t).ingested ∧
      (runIngest files s).skipped = (runIngest files t).skipped := by
  induction files with
  | nil =>
    intro s t hst hex hing hskip
    exact ⟨hst, hex, hing, hskip⟩
  | cons f fs ih =>
    intro s t hst hex hing hskip
    rw [runIngest_cons, runIngest_cons]
    by_cases hdata : isDataFile f.fname
    · rcases hres : f.result with e | m
      · apply ih <;> simp [ingestStep, hdata, hres, hst, hex, hing, hskip]
      · by_cases hdup : m.checksum ∈ s.existing
        · have hdup' : m.checksum ∈ t.existing := hex ▸ hdup
          apply ih <;>
            simp [ingestStep, hdata, hres, hdup, hdup', hst, hex, hing, hskip]
        · have hdup' : m.checksum ∉ t.existing := fun hmem => hdup (hex ▸ hmem)
          apply ih <;>
            simp [ingestStep, hdata, hres, hdup, hdup', hst, hex, hing, hskip]
    · apply ih <;> simp [ingestStep, hdata, hst, hex, hing, hskip]

/-- C9: every data file whose processing raises is recorded in the manifest's
errors list as a `(path, error_type)` entry, `files_errored` counts exactly
those files, and the scan continues: the store, checksum set, and
ingested/skipped counters of the run equal those of the same run with the
failing files removed — no file's failure aborts the run or affects the
processing of the other files. -/
theorem claim_C9_per_file_error_isolation :
    ∀ (files : List ScanFile) (s : IngestState),
      (runIngest files s).errors = s.errors ++ files.filterMap errEntry ∧
      (runIngest files s).errored
        = s.errored + (files.filterMap errEntry).length ∧
      (runIngest files s).store
        = (runIngest (files.filter fun f => (errEntry f).isNone) s).store ∧
      (runIngest files s).existing
        = (runIngest (files.filter fun f => (errEntry f).isNone) s).existing ∧
      (runIngest files s).ingested
        = (runIngest (files.filter fun f => (errEntry f).isNone) s).ingested ∧
      (runIngest files s).skipped
        = (runIngest (files.filter fun f => (errEntry f).isNone) s).skipped := by
  intro files
  induction files with
  | nil =>
    intro s
    simp [runIngest]
  | cons f fs ih =>
    intro s
    rw [runIngest_cons]
    by_cases hdata : isDataFile f.fname
    · rcases hres : f.result with e | m
      · have hent : errEntry f = Option.some (f.path, e) := by
          simp [errEntry, hdata, hres]
        have hstep : ingestStep s f
            = { s with
                scanned := s.scanned + 1
                errors := s.errors ++ [(f.path, e)]
                errored := s.errored + 1 } := by
          simp [ingestStep, hdata, hres]
        rw [hstep]
        obtain ⟨i1, i2, i3, i4, i5, i6⟩ := ih ({ s with
          scanned := s.scanned + 1
          errors := s.errors ++ [(f.path, e)]
          errored := s.errored + 1 })
        obtain ⟨f3, f4, f5, f6⟩ :=
          runIngest_frame (fs.filter fun f => (errEntry f).isNone)
            ({ s with
              scanned := s.scanned + 1
              errors := s.errors ++ [(f.path, e)]
              errored := s.errored + 1 }) s rfl rfl rfl rfl
        have hfil : (f :: fs).filter (fun f => (errEntry f).isNone)
            = fs.filter fun f => (errEntry f).isNone := by
          simp [List.filter, hent]
        rw [hfil]
        refine ⟨?_, ?_, i3.trans f3, i4.trans f4, i5.trans f5, i6.trans f6⟩
        · rw [i1]
          simp [hent]
        · rw [i2]
          simp [hent]
          omega
      · have hent : errEntry f = Option.none := by
          simp [errEntry, hdata, hres]
        have hfil : (f :: fs).filter (fun f => (errEntry f).isNone)
            = f :: fs.filter fun f => (errEntry f).isNone := by
          simp [List.filter, hent]
        rw [hfil, runIngest_cons]
        obtain ⟨i1, i2, i3, i4, i5, i6⟩ := ih (ingestStep s f)
        have herr : (ingestStep s f).errors = s.errors := by
          by_cases hdup : m.checksum ∈ s.existing <;>
            simp [ingestStep, hdata, hres, hdup]
        have herd : (ingestStep s f).errored = s.errored := by
          by_cases hdup : m.checksum ∈ s.existing <;>
            simp [ingestStep, hdata, hres, hdup]
        refine ⟨?_, ?_, i3, i4, i5, i6⟩
        · rw [i1, herr]
          simp [hent]
        · rw [i2, herd]
          simp [hent]
    · have hent : errEntry f = Option.none := by
        simp [errEntry, hdata]
      have hstep : ingestStep s f = s := by simp [ingestStep, hdata]
      have hfil : (f :: fs).filter (fun f => (errEntry f).isNone)
          = f :: fs.filter fun f => (errEntry f).isNone := by
        simp [List.filter, hent]
      rw [hstep, hfil, runIngest_cons, hstep]
      have := ih s
      simpa [hent] using this

/-- Witness for C9: a scan with one readable file, one file raising
`PermissionError`, and one raising `OSError` — both errors recorded, the good
file still ingested. -/
theorem claim_C9_per_file_error_isolation_witness :
    (runIngest
        [⟨"/data/bad.json", "bad.json", Except.error "PermissionError"⟩,
         ⟨"/data/a.json", "a.json", Except.ok (witnessMeta "ca")⟩,
         ⟨"/data/worse.json", "worse.json", Except.error "OSError"⟩]
        (freshState [])).errors
      = (freshState []).errors
        ++ [⟨"/data/bad.json", "bad.json", Except.error "PermissionError"⟩,
            ⟨"/data/a.json", "a.json", Except.ok (witnessMeta "ca")⟩,
            (⟨"/data/worse.json", "worse.json",
              Except.error "OSError"⟩ : ScanFile)].filterMap errEntry :=
  (claim_C9_per_file_error_isolation
    [⟨"/data/bad.json", "bad.json", Except.error "PermissionError"⟩,
     ⟨"/data/a.json", "a.json", Except.ok (witnessMeta "ca")⟩,
     ⟨"/data/worse.json", "worse.json", Except.error "OSError"⟩]
    (freshState [])).1

/-! ## Claim theorems: versioner invariants (C3) -/

/-- A sequence of versioner operations (the record core and the wall-clock
time of each), applied to the empty rows table. -/
def applySteps (ops : List (RowCore × ℕ)) : List Row :=
  ops.foldl (fun st p => (version_step st p.1 p.2).1) []

/-- The rows of one natural key. -/
def keyRows (store : List Row) (k : RowKey) : List Row :=
  store.filter fun r => decide (rowKey r = k)

/-- The lookup of `version_step`, written through `keyRows`. -/
theorem get_existing_eq_keyRows (store : List Row) (c : RowCore) :
    get_existing_row_versions store c.marketName c.commodityName
      (coalesce c.variety) (coalesce c.grade) c.reportedDate
      = sortByVersionDesc (keyRows store (coreKey c)) := rfl

/-- The inductive invariant: for every natural key, the versions of its rows
are a permutation of `1..n` (`n` = number of rows), and any `is_latest` row
carries version `n`. -/
def StoreInv (store : List Row) : Prop :=
  ∀ k : RowKey,
    ((keyRows store k).map fun r => r.core.version).Perm
      (List.range' 1 (keyRows store k).length) ∧
    ∀ r ∈ keyRows store k, r.isLatest = true →
      r.core.version = (keyRows store k).length

theorem sortByVersionDesc_eq_nil {l : List Row}
    (h : sortByVersionDesc l = []) : l = [] :=
  List.eq_nil_of_length_eq_zero
    ((sortByVersionDesc_perm l).symm.length_eq.trans (by rw [h]; rfl))

/-- The supersession update of `version_step`, as a function. -/
def supersedeUpd (targetId newId : String) (now : ℕ) (r : Row) : Row :=
  if r.core.rowId = targetId then
    { r with isLatest := false, supersededBy := Option.some newId,
             supersededAt := Option.some now, updatedAt := now }
  else r

theorem supersedeUpd_core (targetId newId : String) (now : ℕ) (r : Row) :
    (supersedeUpd targetId newId now r).core = r.core := by
  unfold supersedeUpd
  split <;> rfl

theorem supersedeUpd_isLatest {targetId newId : String} {now : ℕ} {r : Row}
    (h : (supersedeUpd targetId newId now r).isLatest = true) :
    r.isLatest = true ∧ ¬r.core.rowId = targetId := by
  unfold supersedeUpd at h
  split at h
  · exact absurd h (by simp)
  · exact ⟨h, by assumption⟩

theorem rowKey_supersedeUpd (targetId newId : String) (now : ℕ) (r : Row) :
    rowKey (supersedeUpd targetId newId now r) = rowKey r := by
  unfold rowKey
  rw [supersedeUpd_core]

/-- `keyRows` after mapping the supersession update. -/
theorem keyRows_map_upd (store : List Row) (k : RowKey)
    (targetId newId : String) (now : ℕ) :
    keyRows (store.map (supersedeUpd targetId newId now)) k
      = (keyRows store k).map (supersedeUpd targetId newId now) := by
  unfold keyRows
  rw [List.filter_map]
  congr 1
  apply List.filter_congr
  intro r _
  simp [Function.comp, rowKey_supersedeUpd]

theorem keyRows_append (store₁ store₂ : List Row) (k : RowKey) :
    keyRows (store₁ ++ store₂) k = keyRows store₁ k ++ keyRows store₂ k :=
  List.filter_append _ _

/-- The successful supersede branch written through `supersedeUpd`. -/
theorem version_step_supersede_upd (store : List Row) (core : RowCore)
    (now : ℕ) (latest : Row) (rest : List Row)
    (hex : get_existing_row_versions store core.marketName core.commodityName
      (coalesce core.variety) (coalesce core.grade) core.reportedDate
      = latest :: rest)
    (hh : ¬latest.core.recordHash = core.recordHash)
    (hfresh : ∀ r ∈ store, ¬r.core.rowId = core.rowId) :
    (version_step store core now).1
      = store.map (supersedeUpd latest.core.rowId core.rowId now)
        ++ [mkLatestRow core (latest.core.version + 1) now] := by
  rw [version_step_supersede store core now latest rest hex hh hfresh]
  rfl

/-- The failed supersede branch written through `supersedeUpd`: the update is
kept, no row is appended. -/
theorem version_step_supersede_upd_conflict (store : List Row)
    (core : RowCore) (now : ℕ) (latest : Row) (rest : List Row)
    (hex : get_existing_row_versions store core.marketName core.commodityName
      (coalesce core.variety) (coalesce core.grade) core.reportedDate
      = latest :: rest)
    (hh : ¬latest.core.recordHash = core.recordHash)
    (hdup : ∃ r ∈ store, r.core.rowId = core.rowId) :
    (version_step store core now).1
      = store.map (supersedeUpd latest.core.rowId core.rowId now) := by
  rw [version_step_supersede_conflict store core now latest rest hex hh hdup]
  rfl

/-- The supersession update alone preserves the inductive invariant: it
never changes a core and can only falsify `is_latest`. -/
theorem StoreInv_map_upd (store : List Row) (targetId newId : String)
    (now : ℕ) (h : StoreInv store) :
    StoreInv (store.map (supersedeUpd targetId newId now)) := by
  intro k
  rw [keyRows_map_upd]
  obtain ⟨hpermk, hlatk⟩ := h k
  constructor
  · have hvm : ((keyRows store k).map (supersedeUpd targetId newId now)).map
        (fun r => r.core.version)
        = (keyRows store k).map fun r => r.core.version := by
      rw [List.map_map]
      apply List.map_congr_left
      intro r _
      simp [Function.comp, supersedeUpd_core]
    rw [hvm, List.length_map]
    exact hpermk
  · intro r hr hrl
    obtain ⟨r0, hr0, hr0e⟩ := List.mem_map.mp hr
    rw [← hr0e] at hrl
    obtain ⟨hl0, _⟩ := supersedeUpd_isLatest hrl
    rw [← hr0e, supersedeUpd_core, List.length_map]
    exact hlatk r0 hr0 hl0

/-- One versioner step preserves the inductive invariant. -/
theorem StoreInv_version_step (store : List Row) (c : RowCore) (now : ℕ)
    (h : StoreInv store) : StoreInv (version_step store c now).1 := by
  rcases hsort : sortByVersionDesc (keyRows store (coreKey c))
    with _ | ⟨latest, rest⟩
  · -- no existing versions: insert version 1 (or hit the primary key)
    have hkr : keyRows store (coreKey c) = [] := sortByVersionDesc_eq_nil hsort
    by_cases hdup : (store.any fun r => r.core.rowId == c.rowId) = true
    · -- duplicate row id: the INSERT fails, the store is unchanged
      have hstep : (version_step store c now).1 = store := by
        rw [version_step_insert_conflict store c now
          ((get_existing_eq_keyRows store c).trans (by rw [hsort])) hdup]
      rw [hstep]
      exact h
    have hfresh : ∀ r ∈ store, ¬r.core.rowId = c.rowId := by
      have hfalse : (store.any fun r => r.core.rowId == c.rowId) = false := by
        simpa using hdup
      intro r hr
      have := List.any_eq_false.mp hfalse r hr
      simpa using this
    have hstep : (version_step store c now).1 = store ++ [mkLatestRow c 1 now] := by
      rw [version_step_insert store c now
        ((get_existing_eq_keyRows store c).trans (by rw [hsort])) hfresh]
    rw [hstep]
    intro k
    rw [keyRows_append]
    by_cases hk : rowKey (mkLatestRow c 1 now) = k
    · have hone : keyRows [mkLatestRow c 1 now] k = [mkLatestRow c 1 now] := by
        simp [keyRows, hk]
      have hk0 : coreKey c = k := hk
      rw [hone, ← hk0, hkr]
      constructor
      · simp [mkLatestRow, List.range']
      · intro r hr _
        simp only [List.nil_append, List.mem_singleton] at hr
        subst hr
        rfl
    · have hnone : keyRows [mkLatestRow c 1 now] k = [] := by
        simp [keyRows, hk]
      rw [hnone, List.append_nil]
      exact h k
  · obtain ⟨hmem, hmax⟩ := sortByVersionDesc_head_max hsort
    obtain ⟨hperm0, hlat0⟩ := h (coreKey c)
    by_cases hh : latest.core.recordHash = c.recordHash
    · -- unchanged: skip
      have hstep : (version_step store c now).1 = store :=
        congrArg Prod.fst (version_step_skip store c now latest rest
          ((get_existing_eq_keyRows store c).trans hsort) hh)
      rw [hstep]
      exact h
    · -- changed: supersede latest, then insert next version (or hit the
      -- primary key with the update already applied)
      by_cases hdup : ∃ r ∈ store, r.core.rowId = c.rowId
      · -- duplicate row id: the UPDATE is kept, the INSERT fails
        have hstep := version_step_supersede_upd_conflict store c now latest
          rest ((get_existing_eq_keyRows store c).trans hsort) hh hdup
        rw [hstep]
        exact StoreInv_map_upd store latest.core.rowId c.rowId now h
      have hfresh : ∀ r ∈ store, ¬r.core.rowId = c.rowId :=
        fun r hr hx => hdup ⟨r, hr, hx⟩
      have hstep := version_step_supersede_upd store c now latest rest
        ((get_existing_eq_keyRows store c).trans hsort) hh hfresh
      have hn1 : 0 < (keyRows store (coreKey c)).length :=
        List.length_pos_of_mem hmem
      have hlatn : latest.core.version = (keyRows store (coreKey c)).length := by
        apply le_antisymm
        · have hv : latest.core.version
              ∈ (keyRows store (coreKey c)).map fun r => r.core.version :=
            List.mem_map_of_mem _ hmem
          have := hperm0.subset hv
          rw [List.mem_range'_1] at this
          omega
        · have hmem_n : (keyRows store (coreKey c)).length
              ∈ List.range' 1 (keyRows store (coreKey c)).length := by
            rw [List.mem_range'_1]
            omega
          obtain ⟨r, hr, hrv⟩ := List.mem_map.mp (hperm0.symm.subset hmem_n)
          have := hmax r hr
          omega
      -- the version-n row of this key is unique
      have hcount : ((keyRows store (coreKey c)).filter fun r =>
          decide (r.core.version = (keyRows store (coreKey c)).length)).length
          = 1 := by
        have h1 : ((keyRows store (coreKey c)).map fun r => r.core.version).count
            ((keyRows store (coreKey c)).length) = 1 := by
          rw [hperm0.count_eq]
          exact List.count_eq_one_of_mem (List.nodup_range' _ _) (by
            rw [List.mem_range'_1]
            omega)
        rw [List.count, List.countP_map] at h1
        rw [← List.countP_eq_length_filter]
        rw [← h1]
        apply List.countP_congr
        intro r _
        simp [Function.comp]
      obtain ⟨uniqueRow, hru⟩ := List.length_eq_one.mp hcount
      have hlatest_unique : ∀ r ∈ keyRows store (coreKey c),
          r.core.version = (keyRows store (coreKey c)).length → r = latest := by
        intro r hr hv
        have hr' : r ∈ (keyRows store (coreKey c)).filter fun r =>
            decide (r.core.version = (keyRows store (coreKey c)).length) :=
          List.mem_filter.mpr ⟨hr, by simp [hv]⟩
        have hl' : latest ∈ (keyRows store (coreKey c)).filter fun r =>
            decide (r.core.version = (keyRows store (coreKey c)).length) :=
          List.mem_filter.mpr ⟨hmem, by simp [hlatn]⟩
        rw [hru] at hr' hl'
        rw [List.mem_singleton.mp hr', List.mem_singleton.mp hl']
      rw [hstep]
      intro k
      rw [keyRows_append, keyRows_map_upd]
      by_cases hk : rowKey (mkLatestRow c (latest.core.version + 1) now) = k
      · -- the updated key
        have hone : keyRows [mkLatestRow c (latest.core.version + 1) now] k
            = [mkLatestRow c (latest.core.version + 1) now] := by
          simp [keyRows, hk]
        have hk0 : coreKey c = k := hk
        rw [hone, ← hk0]
        obtain ⟨hperm0, hlat0⟩ := h (coreKey c)
        constructor
        · -- versions are 1..n+1
          rw [List.map_append, List.map_map]
          have hvm : ((keyRows store (coreKey c)).map
              ((fun r => r.core.version) ∘ supersedeUpd latest.core.rowId c.rowId now))
              = (keyRows store (coreKey c)).map fun r => r.core.version := by
            apply List.map_congr_left
            intro r _
            simp [Function.comp, supersedeUpd_core]
          rw [hvm]
          have hlen : ((keyRows store (coreKey c)).map
                (supersedeUpd latest.core.rowId c.rowId now)
              ++ [mkLatestRow c (latest.core.version + 1) now]).length
              = (keyRows store (coreKey c)).length + 1 := by
            simp
          rw [hlen]
          have hnewv : (List.map (fun r => r.core.version)
              [mkLatestRow c (latest.core.version + 1) now])
              = [(keyRows store (coreKey c)).length + 1] := by
            simp [mkLatestRow, hlatn]
          have hrc : List.range' 1 ((keyRows store (coreKey c)).length + 1)
              = List.range' 1 (keyRows store (coreKey c)).length
                ++ [(keyRows store (coreKey c)).length + 1] := by
            rw [List.range'_concat]
            congr 1
            rw [one_mul, Nat.add_comm]
          rw [hnewv, hrc]
          exact hperm0.append (List.Perm.refl _)
        · -- only the new row is latest, at version n+1
          intro r hr hrl
          rcases List.mem_append.mp hr with hr | hr
          · obtain ⟨r0, hr0, hr0e⟩ := List.mem_map.mp hr
            rw [← hr0e] at hrl
            obtain ⟨hl0, hne0⟩ := supersedeUpd_isLatest hrl
            have hv0 := hlat0 r0 hr0 hl0
            have := hlatest_unique r0 hr0 hv0
            rw [this] at hne0
            exact absurd rfl hne0
          · rw [List.mem_singleton.mp hr]
            simp only [List.length_append, List.length_map, List.length_singleton]
            rw [show ((mkLatestRow c (latest.core.version + 1) now) : Row).core.version
              = latest.core.version + 1 from rfl, hlatn]
      · -- other keys: only falsifying updates, nothing relevant changes
        have hnone : keyRows [mkLatestRow c (latest.core.version + 1) now] k
            = [] := by
          simp [keyRows, hk]
        rw [hnone, List.append_nil]
        obtain ⟨hpermk, hlatk⟩ := h k
        constructor
        · have hvm : ((keyRows store k).map
              (supersedeUpd latest.core.rowId c.rowId now)).map
                (fun r => r.core.version)
              = (keyRows store k).map fun r => r.core.version := by
            rw [List.map_map]
            apply List.map_congr_left
            intro r _
            simp [Function.comp, supersedeUpd_core]
          rw [hvm, List.length_map]
          exact hpermk
        · intro r hr hrl
          obtain ⟨r0, hr0, hr0e⟩ := List.mem_map.mp hr
          rw [← hr0e] at hrl
          obtain ⟨hl0, _⟩ := supersedeUpd_isLatest hrl
          rw [← hr0e, supersedeUpd_core, List.length_map]
          exact hlatk r0 hr0 hl0

theorem StoreInv_empty : StoreInv [] := by
  intro k
  constructor
  · simp [keyRows]
  · intro r hr
    simp [keyRows] at hr

theorem StoreInv_foldl : ∀ (ops : List (RowCore × ℕ)) (store : List Row),
    StoreInv store →
    StoreInv (ops.foldl (fun st p => (version_step st p.1 p.2).1) store)
  | [], _, h => h
  | op :: ops, store, h =>
    StoreInv_foldl ops _ (StoreInv_version_step store op.1 op.2 h)

theorem StoreInv_applySteps (ops : List (RowCore × ℕ)) :
    StoreInv (applySteps ops) :=
  StoreInv_foldl ops [] StoreInv_empty

/-- One versioner step never deletes a row and never modifies any field of
the `core` block (everything except `is_latest`, `superseded_by`,
`superseded_at`, `updated_at`): the cores after a step are the cores before,
in order, possibly with one inserted core appended. -/
theorem version_step_core_append (store : List Row) (c : RowCore) (now : ℕ) :
    ∃ tail, ((version_step store c now).1.map fun r => r.core)
      = (store.map fun r => r.core) ++ tail := by
  rcases hsort : sortByVersionDesc (keyRows store (coreKey c))
    with _ | ⟨latest, rest⟩
  · by_cases hdup : (store.any fun r => r.core.rowId == c.rowId) = true
    · refine ⟨[], ?_⟩
      rw [congrArg Prod.fst (version_step_insert_conflict store c now
        ((get_existing_eq_keyRows store c).trans (by rw [hsort])) hdup)]
      simp
    · have hfresh : ∀ r ∈ store, ¬r.core.rowId = c.rowId := by
        have hfalse : (store.any fun r => r.core.rowId == c.rowId) = false := by
          simpa using hdup
        intro r hr
        have := List.any_eq_false.mp hfalse r hr
        simpa using this
      refine ⟨[(mkLatestRow c 1 now).core], ?_⟩
      rw [version_step_insert store c now
        ((get_existing_eq_keyRows store c).trans (by rw [hsort])) hfresh]
      simp
  · by_cases hh : latest.core.recordHash = c.recordHash
    · refine ⟨[], ?_⟩
      rw [congrArg Prod.fst (version_step_skip store c now latest rest
        ((get_existing_eq_keyRows store c).trans hsort) hh)]
      simp
    · by_cases hdup : ∃ r ∈ store, r.core.rowId = c.rowId
      · refine ⟨[], ?_⟩
        rw [version_step_supersede_upd_conflict store c now latest rest
          ((get_existing_eq_keyRows store c).trans hsort) hh hdup]
        rw [List.map_map, List.append_nil]
        apply List.map_congr_left
        intro r _
        simp [Function.comp, supersedeUpd_core]
      · have hfresh : ∀ r ∈ store, ¬r.core.rowId = c.rowId :=
          fun r hr hx => hdup ⟨r, hr, hx⟩
        refine ⟨[(mkLatestRow c (latest.core.version + 1) now).core], ?_⟩
        rw [version_step_supersede_upd store c now latest rest
          ((get_existing_eq_keyRows store c).trans hsort) hh hfresh]
        rw [List.map_append, List.map_map]
        congr 1
        apply List.map_congr_left
        intro r _
        simp [Function.comp, supersedeUpd_core]

theorem foldl_core_append : ∀ (ops : List (RowCore × ℕ)) (store : List Row),
    ∃ tail, ((ops.foldl (fun st p => (version_step st p.1 p.2).1) store).map
      fun r => r.core) = (store.map fun r => r.core) ++ tail
  | [], store => ⟨[], by simp⟩
  | op :: ops, store => by
    obtain ⟨t1, h1⟩ := version_step_core_append store op.1 op.2
    obtain ⟨t2, h2⟩ := foldl_core_append ops (version_step store op.1 op.2).1
    exact ⟨t1 ++ t2, by rw [List.foldl_cons, h2, h1, List.append_assoc]⟩

/-- At most one `is_latest` row per key follows from the inductive
invariant. -/
theorem StoreInv_atMostOne {store : List Row} (h : StoreInv store)
    (k : RowKey) :
    ((keyRows store k).filter fun r => r.isLatest).length ≤ 1 := by
  obtain ⟨hperm, hlat⟩ := h k
  by_cases hn : (keyRows store k).length = 0
  · rw [List.length_eq_zero.mp hn]
    simp
  · have hcount : ((keyRows store k).filter fun r =>
        decide (r.core.version = (keyRows store k).length)).length = 1 := by
      have h1 : ((keyRows store k).map fun r => r.core.version).count
          ((keyRows store k).length) = 1 := by
        rw [hperm.count_eq]
        exact List.count_eq_one_of_mem (List.nodup_range' _ _) (by
          rw [List.mem_range'_1]
          omega)
      rw [List.count, List.countP_map] at h1
      rw [← List.countP_eq_length_filter]
      rw [← h1]
      apply List.countP_congr
      intro r _
      simp [Function.comp]
    rw [← List.countP_eq_length_filter]
    rw [← List.countP_eq_length_filter] at hcount
    rw [← hcount]
    apply List.countP_mono_left
    intro r hr hp
    simp [hlat r hr hp]

/-- C3: every sequence of versioner operations, starting from the empty rows
table, preserves the invariants — for each natural key at most one row has
`is_latest = true` at quiescence and the version numbers of the key's rows
form a contiguous sequence `1..n` — and rows are never deleted nor modified
in any field outside the supersession block (`is_latest`, `superseded_by`,
`superseded_at`, `updated_at`): after further operations the stored cores
are the same cores, in order, plus appended inserts. -/
theorem claim_C3_versioner_invariants :
    (∀ (ops : List (RowCore × ℕ)) (k : RowKey),
      ((keyRows (applySteps ops) k).filter fun r => r.isLatest).length ≤ 1) ∧
    (∀ (ops : List (RowCore × ℕ)) (k : RowKey),
      ((keyRows (applySteps ops) k).map fun r => r.core.version).Perm
        (List.range' 1 (keyRows (applySteps ops) k).length)) ∧
    (∀ ops extra : List (RowCore × ℕ), ∃ tail,
      (applySteps (ops ++ extra)).map (fun r => r.core)
        = ((applySteps ops).map fun r => r.core) ++ tail) := by
  refine ⟨?_, ?_, ?_⟩
  · intro ops k
    exact StoreInv_atMostOne (StoreInv_applySteps ops) k
  · intro ops k
    exact (StoreInv_applySteps ops k).1
  · intro ops extra
    rw [show applySteps (ops ++ extra)
      = extra.foldl (fun st p => (version_step st p.1 p.2).1) (applySteps ops)
      from List.foldl_append _ _ _ _]
    exact foldl_core_append extra (applySteps ops)

/-- Witness for C3: the invariants instantiated on a concrete two-operation
history for one natural key. -/
theorem claim_C3_versioner_invariants_witness :
    ((keyRows (applySteps
        [(witnessCore "r1" "h1", 1), (witnessCore "r2" "h2", 2)])
      (coreKey (witnessCore "r1" "h1"))).filter fun r => r.isLatest).length
      ≤ 1 :=
  claim_C3_versioner_invariants.1
    [(witnessCore "r1" "h1", 1), (witnessCore "r2" "h2", 2)]
    (coreKey (witnessCore "r1" "h1"))

end CropAI
